import Mathlib

/-!
Verification of the redis-go-clone storage engine.

This file gives a shallow embedding, in Lean 4, of the core of the
redis-go-clone repository: the keyed expiration min-heap
(src/server/keyExpiration.go together with Go's container/heap
algorithms), the keyspace map (src/server/keydataSpace.go), the
command handlers (GET/SET/DEL/SETEXP), the background reaper step
(src/server/routines.go), the RDB snapshot serialization
(src/server/server_main.go) and the client tokenizer
(src/client/client_main.go).

Go strings are byte sequences; they are modelled as `List Nat` of byte
values.  Go maps are modelled extensionally as association lists
(lookup finds the first matching key; insertion overwrites in place or
appends; deletion filters).  Machine integers are modelled as `Int`
with explicit wrapping modulo 2^64 where Go's int64 arithmetic can
overflow, and `Nat` with explicit truncation modulo 2^32 for the
uint32 length fields of the snapshot format.
-/

namespace RedisGo

/-- Go byte strings, modelled as lists of byte values. -/
abbrev ByteStr := List Nat

/-- ASCII bytes of a Lean string literal; used to write concrete inputs
and expected replies readably.  For ASCII text this is exactly the Go
byte representation. -/
def strBytes (s : String) : ByteStr :=
  s.data.map Char.toNat

/-- Lookup in the association-list model of a Go map: first entry with
the given key. -/
def mapLookup {α : Type} : List (ByteStr × α) → ByteStr → Option α
  | [], _ => none
  | p :: m, k => if p.1 = k then some p.2 else mapLookup m k

/-- Insertion in the association-list model of a Go map
(`m[k] = v`): overwrite in place when the key is present, append
otherwise. -/
def mapInsert {α : Type} : List (ByteStr × α) → ByteStr → α → List (ByteStr × α)
  | [], k, v => [(k, v)]
  | p :: m, k, v => if p.1 = k then (k, v) :: m else p :: mapInsert m k v

/-- Deletion in the association-list model of a Go map (`delete(m, k)`). -/
def mapErase {α : Type} : List (ByteStr × α) → ByteStr → List (ByteStr × α)
  | [], _ => []
  | p :: m, k => if p.1 = k then mapErase m k else p :: mapErase m k

/-- The keys of the association list are pairwise distinct (always true
of an actual Go map). -/
def NodupKeys {α : Type} (m : List (ByteStr × α)) : Prop :=
  (m.map Prod.fst).Nodup

theorem mapLookup_insert {α : Type} (m : List (ByteStr × α)) (k : ByteStr)
    (v : α) (k2 : ByteStr) :
    mapLookup (mapInsert m k v) k2 =
      if k2 = k then some v else mapLookup m k2 := by
  induction m with
  | nil =>
    by_cases h : k2 = k
    · simp [mapInsert, mapLookup, h]
    · have h' : ¬ k = k2 := fun hc => h hc.symm
      simp [mapInsert, mapLookup, h, h']
  | cons p m ih =>
    by_cases hp : p.1 = k
    · by_cases h2 : k2 = k
      · simp [mapInsert, mapLookup, hp, h2]
      · have h2' : ¬ k = k2 := fun hc => h2 hc.symm
        have hpk2 : ¬ p.1 = k2 := by rw [hp]; exact h2'
        simp [mapInsert, mapLookup, hp, h2, h2', hpk2]
    · by_cases h2 : p.1 = k2
      · have hk2 : ¬ k2 = k := fun hc => hp (h2.trans hc)
        simp [mapInsert, mapLookup, hp, h2, hk2]
      · simp [mapInsert, mapLookup, hp, h2, ih]

theorem mapLookup_erase {α : Type} (m : List (ByteStr × α)) (k : ByteStr)
    (k2 : ByteStr) :
    mapLookup (mapErase m k) k2 =
      if k2 = k then none else mapLookup m k2 := by
  induction m with
  | nil => simp [mapErase, mapLookup]
  | cons p m ih =>
    by_cases hp : p.1 = k
    · by_cases h2 : k2 = k
      · simpa [mapErase, hp, h2] using ih
      · have h2' : ¬ k = k2 := fun hc => h2 hc.symm
        have hpk2 : ¬ p.1 = k2 := by rw [hp]; exact h2'
        simp only [mapErase, mapLookup, hp, if_true, h2, if_false, hpk2, ih]
        rw [if_neg h2']
    · by_cases h2 : p.1 = k2
      · have hk2 : ¬ k2 = k := fun hc => hp (h2.trans hc)
        simp [mapErase, mapLookup, hp, h2, hk2]
      · simp [mapErase, mapLookup, hp, h2, ih]

/-- A key is in the key list of `mapInsert m k v` iff it is `k` or was
already a key of `m`. -/
theorem mem_keys_insert {α : Type} (m : List (ByteStr × α)) (k : ByteStr)
    (v : α) (a : ByteStr) :
    a ∈ (mapInsert m k v).map Prod.fst ↔ a = k ∨ a ∈ m.map Prod.fst := by
  induction m with
  | nil => simp [mapInsert]
  | cons p m ih =>
    obtain ⟨pk, pv⟩ := p
    by_cases hp : pk = k
    · subst hp
      simp [mapInsert, List.mem_cons]
    · simp only [mapInsert, if_neg hp, List.map_cons, List.mem_cons, ih]
      tauto

theorem mem_keys_erase {α : Type} (m : List (ByteStr × α)) (k : ByteStr)
    (a : ByteStr) (h : a ∈ (mapErase m k).map Prod.fst) :
    a ∈ m.map Prod.fst := by
  induction m with
  | nil => simp [mapErase] at h
  | cons p m ih =>
    obtain ⟨pk, pv⟩ := p
    by_cases hp : pk = k
    · simp only [mapErase, if_pos hp] at h
      simp only [List.map_cons, List.mem_cons]
      exact Or.inr (ih h)
    · simp only [mapErase, if_neg hp, List.map_cons, List.mem_cons] at h ⊢
      tauto

theorem nodupKeys_insert {α : Type} (m : List (ByteStr × α)) (k : ByteStr)
    (v : α) (h : NodupKeys m) : NodupKeys (mapInsert m k v) := by
  induction m with
  | nil => simp [mapInsert, NodupKeys]
  | cons p m ih =>
    obtain ⟨pk, pv⟩ := p
    unfold NodupKeys at h ⊢
    simp only [List.map_cons, List.nodup_cons] at h
    by_cases hp : pk = k
    · subst hp
      simpa [mapInsert] using h
    · simp only [mapInsert, if_neg hp, List.map_cons, List.nodup_cons]
      refine ⟨?_, ih h.2⟩
      rw [mem_keys_insert]
      rintro (hc | hc)
      · exact hp hc
      · exact h.1 hc

theorem nodupKeys_erase {α : Type} (m : List (ByteStr × α)) (k : ByteStr)
    (h : NodupKeys m) : NodupKeys (mapErase m k) := by
  induction m with
  | nil => simpa [mapErase] using h
  | cons p m ih =>
    obtain ⟨pk, pv⟩ := p
    unfold NodupKeys at h ⊢
    simp only [List.map_cons, List.nodup_cons] at h
    by_cases hp : pk = k
    · simp only [mapErase, if_pos hp]
      exact ih h.2
    · simp only [mapErase, if_neg hp, List.map_cons, List.nodup_cons]
      exact ⟨fun hc => h.1 (mem_keys_erase m k pk hc), ih h.2⟩

theorem mapLookup_isSome_iff_mem {α : Type} (m : List (ByteStr × α))
    (k : ByteStr) :
    (mapLookup m k).isSome ↔ k ∈ m.map Prod.fst := by
  induction m with
  | nil => simp [mapLookup]
  | cons p m ih =>
    obtain ⟨pk, pv⟩ := p
    by_cases hp : pk = k
    · subst hp
      simp [mapLookup]
    · have hp2 : ¬ k = pk := fun hc => hp hc.symm
      simp [mapLookup, hp, hp2, ih]

/-! ### The keyed expiration min-heap (src/server/keyExpiration.go)

`KeyExpiration` and `KeyExpirationMinHeap` are translated from
keyExpiration.go.  The `container/heap` algorithms (`up`, `down`,
`heap.Push`, `heap.Pop`, `heap.Remove`, `heap.Fix`) are translated
from Go's standard library, which the source wraps. -/

/-- A key together with its absolute expiration timestamp in
milliseconds (src/server/keyExpiration.go). -/
structure KeyExpiration where
  key : ByteStr
  expire_timestamp : Int
deriving DecidableEq

/-- The heap state: backing slice plus the key-to-slot index map. -/
structure KeyExpirationMinHeap where
  items : List KeyExpiration
  index : List (ByteStr × Nat)
deriving DecidableEq

/-- `NewKeyExpirationMinHeap`: the empty heap. -/
def NewKeyExpirationMinHeap : KeyExpirationMinHeap := ⟨[], []⟩

/-- Read of `h.items[i]`.  Go panics when out of range; all verified
call sites stay in range, so the dummy entry is never observed. -/
def getE (h : KeyExpirationMinHeap) (i : Nat) : KeyExpiration :=
  h.items.getD i ⟨[], 0⟩

/-- Timestamp at a slot. -/
def tsAt (h : KeyExpirationMinHeap) (i : Nat) : Int :=
  (getE h i).expire_timestamp

/-- `Less` of the heap interface (keyExpiration.go):
`items[i].expire_timestamp < items[j].expire_timestamp`. -/
def lessH (h : KeyExpirationMinHeap) (i j : Nat) : Prop :=
  tsAt h i < tsAt h j

instance (h : KeyExpirationMinHeap) (i j : Nat) : Decidable (lessH h i j) :=
  inferInstanceAs (Decidable (_ < _))

/-- `Swap` (keyExpiration.go): exchange slots `i` and `j`, then update
the index map for both keys now at `i` and `j` (in that order). -/
def swapH (h : KeyExpirationMinHeap) (i j : Nat) : KeyExpirationMinHeap :=
  let a := getE h i
  let b := getE h j
  { items := (h.items.set i b).set j a
    index := mapInsert (mapInsert h.index b.key i) a.key j }

/-- Non-locking `Push` method (keyExpiration.go): record the index of
the appended slot, then append. -/
def pushM (h : KeyExpirationMinHeap) (item : KeyExpiration) :
    KeyExpirationMinHeap :=
  { items := h.items ++ [item]
    index := mapInsert h.index item.key h.items.length }

/-- Non-locking `Pop` method (keyExpiration.go): remove and return the
last slot, deleting its key from the index map. -/
def popM (h : KeyExpirationMinHeap) : KeyExpiration × KeyExpirationMinHeap :=
  let item := getE h (h.items.length - 1)
  (item, { items := h.items.dropLast, index := mapErase h.index item.key })

/-- Parent slot in the implicit binary tree, `(j-1)/2` as in
container/heap (for `j = 0` this is `0` in Go and in Nat arithmetic). -/
def parentIdx (j : Nat) : Nat := (j - 1) / 2

/-- container/heap `up`: sift slot `j` towards the root. -/
def upH (h : KeyExpirationMinHeap) (j : Nat) : KeyExpirationMinHeap :=
  if parentIdx j = j ∨ ¬ lessH h j (parentIdx j) then h
  else upH (swapH h (parentIdx j) j) (parentIdx j)
termination_by j
decreasing_by
  rename_i hcond
  push_neg at hcond
  have hne := hcond.1
  unfold parentIdx at hne ⊢
  omega

/-- The smaller in-range child of slot `i` (`j` in container/heap
`down`: `j1 = 2*i+1`, bumped to `j2 = j1+1` when `j2 < n` and
`Less(j2, j1)`). -/
def minChild (h : KeyExpirationMinHeap) (i n : Nat) : Nat :=
  if 2 * i + 2 < n ∧ lessH h (2 * i + 2) (2 * i + 1) then 2 * i + 2
  else 2 * i + 1

theorem minChild_gt (h : KeyExpirationMinHeap) (i n : Nat) :
    i < minChild h i n := by
  unfold minChild; split <;> omega

theorem minChild_lt (h : KeyExpirationMinHeap) (i n : Nat)
    (hn : 2 * i + 1 < n) : minChild h i n < n := by
  unfold minChild; split <;> omega

/-- container/heap `down`, as a loop returning the final slot of the
sifted element (the Go function returns `i > i0` from the final `i`). -/
def downLoop (h : KeyExpirationMinHeap) (i n : Nat) :
    KeyExpirationMinHeap × Nat :=
  if 2 * i + 1 ≥ n then (h, i)
  else if ¬ lessH h (minChild h i n) i then (h, i)
  else downLoop (swapH h i (minChild h i n)) (minChild h i n) n
termination_by n - i
decreasing_by
  rename_i hj1 _
  simp only [ge_iff_le, not_le] at hj1
  have h1 := minChild_gt h i n
  have h2 := minChild_lt h i n hj1
  omega

/-- container/heap `down`: the Bool result reports whether the element
moved. -/
def downH (h : KeyExpirationMinHeap) (i0 n : Nat) :
    KeyExpirationMinHeap × Bool :=
  let r := downLoop h i0 n
  (r.1, decide (r.2 > i0))

/-- container/heap `heap.Push`: `h.Push(x); up(h, h.Len()-1)`. -/
def heapPush (h : KeyExpirationMinHeap) (x : KeyExpiration) :
    KeyExpirationMinHeap :=
  upH (pushM h x) ((pushM h x).items.length - 1)

/-- container/heap `heap.Pop`. -/
def heapPop (h : KeyExpirationMinHeap) :
    KeyExpiration × KeyExpirationMinHeap :=
  let n := h.items.length - 1
  let h1 := swapH h 0 n
  let h2 := (downLoop h1 0 n).1
  popM h2

/-- container/heap `heap.Remove`. -/
def heapRemove (h : KeyExpirationMinHeap) (i : Nat) :
    KeyExpiration × KeyExpirationMinHeap :=
  let n := h.items.length - 1
  if i ≠ n then
    let h1 := swapH h i n
    let r := downH h1 i n
    let h2 := if r.2 then r.1 else upH r.1 i
    popM h2
  else popM h

/-- container/heap `heap.Fix`. -/
def heapFix (h : KeyExpirationMinHeap) (i : Nat) : KeyExpirationMinHeap :=
  let r := downH h i h.items.length
  if r.2 then r.1 else upH r.1 i

/-- `Peek` (keyExpiration.go): smallest element without removal;
`none` models `(zero, false)` on the empty heap. -/
def KeyExpirationMinHeap.Peek (h : KeyExpirationMinHeap) :
    Option KeyExpiration :=
  if h.items.length = 0 then none else some (getE h 0)

/-- `h.items[existingIdx].expire_timestamp = ts` in `PushItem`:
overwrite the timestamp stored at a slot, leaving its key in place. -/
def setStamp (h : KeyExpirationMinHeap) (idx : Nat) (ts : Int) :
    KeyExpirationMinHeap :=
  { h with items := h.items.set idx ⟨(getE h idx).key, ts⟩ }

/-- `PushItem` (keyExpiration.go): overwrite the timestamp and
`heap.Fix` when the key is already present, else `heap.Push`. -/
def KeyExpirationMinHeap.PushItem (h : KeyExpirationMinHeap)
    (item : KeyExpiration) : KeyExpirationMinHeap :=
  match mapLookup h.index item.key with
  | some existingIdx => heapFix (setStamp h existingIdx item.expire_timestamp) existingIdx
  | none => heapPush h item

/-- `PopMin` (keyExpiration.go): `none` models `(zero, false)` on the
empty heap; otherwise `heap.Pop`. -/
def KeyExpirationMinHeap.PopMin (h : KeyExpirationMinHeap) :
    Option KeyExpiration × KeyExpirationMinHeap :=
  if h.items.length = 0 then (none, h)
  else
    let r := heapPop h
    (some r.1, r.2)

/-- `Remove` (keyExpiration.go): remove by key via the index map;
no-op returning `none` when the key is absent. -/
def KeyExpirationMinHeap.Remove (h : KeyExpirationMinHeap) (key : ByteStr) :
    Option KeyExpiration × KeyExpirationMinHeap :=
  match mapLookup h.index key with
  | some idx =>
      let r := heapRemove h idx
      (some r.1, r.2)
  | none => (none, h)

/-- Modelled from the spec: `FindExpiration(key) → (deadline, present)`,
an O(1) lookup through the index map.  The function is called by
`saveRDBFile` but its definition is not among the repository's source
files. -/
def KeyExpirationMinHeap.FindExpiration (h : KeyExpirationMinHeap)
    (key : ByteStr) : Option Int :=
  (mapLookup h.index key).map (fun i => tsAt h i)

/-- Modelled from the spec: `UpdateExpiration(key, deadline) → present`,
equivalent to `PushItem` for an existing key; returns false and is a
no-op if the key is absent.  Called by `SETEXP` but not defined among
the repository's source files. -/
def KeyExpirationMinHeap.UpdateExpiration (h : KeyExpirationMinHeap)
    (key : ByteStr) (deadline : Int) : KeyExpirationMinHeap × Bool :=
  if (mapLookup h.index key).isSome then
    (h.PushItem ⟨key, deadline⟩, true)
  else (h, false)

/-- Modelled from the spec: `DeepCopy() → independent index`.  In a pure
model a deep copy is the value itself. -/
def KeyExpirationMinHeap.DeepCopy (h : KeyExpirationMinHeap) :
    KeyExpirationMinHeap := h

/-! ### Auxiliary list lemmas -/

theorem getD_set_eq {α : Type} (l : List α) (i : Nat) (a d : α)
    (h : i < l.length) : (l.set i a).getD i d = a := by
  simp [List.getD_eq_getElem?_getD, List.getElem?_set_self, h]

theorem getD_set_ne {α : Type} (l : List α) (i j : Nat) (a d : α)
    (h : i ≠ j) : (l.set i a).getD j d = l.getD j d := by
  simp [List.getD_eq_getElem?_getD, List.getElem?_set_ne, h]

theorem getD_concat_length {α : Type} (l : List α) (x d : α) :
    (l ++ [x]).getD l.length d = x := by
  simp [List.getD_eq_getElem?_getD, List.getElem?_concat_length]

theorem getD_append_lt {α : Type} (l : List α) (x d : α) (i : Nat)
    (h : i < l.length) : (l ++ [x]).getD i d = l.getD i d := by
  simp [List.getD_eq_getElem?_getD, List.getElem?_append_left, h]

theorem getD_default {α : Type} (l : List α) (i : Nat) (d : α)
    (h : l.length ≤ i) : l.getD i d = d := by
  simp [List.getD_eq_getElem?_getD, List.getElem?_eq_none h]

theorem getD_dropLast {α : Type} (l : List α) (i : Nat) (d : α)
    (h : i < l.length - 1) : l.dropLast.getD i d = l.getD i d := by
  rw [List.dropLast_eq_take, List.getD_eq_getElem?_getD,
    List.getD_eq_getElem?_getD, List.getElem?_take, if_pos h]

/-! ### The heap well-formedness invariant -/

/-- The invariant of the index map (spec §4.3): the index maps a key to
a slot exactly when that slot is in range and holds that key, and the
index has no duplicate keys. -/
def WFHeap (h : KeyExpirationMinHeap) : Prop :=
  (∀ k i, mapLookup h.index k = some i ↔
    (i < h.items.length ∧ (getE h i).key = k))
  ∧ NodupKeys h.index

theorem WFHeap.lookup_self {h : KeyExpirationMinHeap} (hwf : WFHeap h)
    (i : Nat) (hi : i < h.items.length) :
    mapLookup h.index (getE h i).key = some i :=
  (hwf.1 _ i).2 ⟨hi, rfl⟩

theorem WFHeap.key_inj {h : KeyExpirationMinHeap} (hwf : WFHeap h)
    {i j : Nat} (hi : i < h.items.length) (hj : j < h.items.length)
    (hk : (getE h i).key = (getE h j).key) : i = j := by
  have h1 := hwf.lookup_self i hi
  have h2 := hwf.lookup_self j hj
  rw [hk] at h1
  rw [h1] at h2
  exact Option.some_inj.mp h2

/-! ### Characterization of the primitive heap mutations -/

theorem length_swapH (h : KeyExpirationMinHeap) (i j : Nat) :
    (swapH h i j).items.length = h.items.length := by
  simp [swapH]

theorem getE_swapH (h : KeyExpirationMinHeap) (i j : Nat)
    (hi : i < h.items.length) (hj : j < h.items.length) (r : Nat) :
    getE (swapH h i j) r =
      if r = j then getE h i else if r = i then getE h j else getE h r := by
  unfold swapH getE
  simp only
  by_cases hrj : r = j
  · subst hrj
    rw [if_pos rfl, getD_set_eq]
    simpa using hj
  · rw [if_neg hrj, getD_set_ne _ _ _ _ _ (fun hc => hrj hc.symm)]
    by_cases hri : r = i
    · subst hri
      rw [if_pos rfl, getD_set_eq _ _ _ _ hi]
    · rw [if_neg hri, getD_set_ne _ _ _ _ _ (fun hc => hri hc.symm)]

theorem mapLookup_swapH (h : KeyExpirationMinHeap) (i j : Nat)
    (k : ByteStr) :
    mapLookup (swapH h i j).index k =
      if k = (getE h i).key then some j
      else if k = (getE h j).key then some i
      else mapLookup h.index k := by
  unfold swapH
  simp only
  rw [mapLookup_insert, mapLookup_insert]

theorem WF_swapH (h : KeyExpirationMinHeap) (i j : Nat)
    (hi : i < h.items.length) (hj : j < h.items.length)
    (hwf : WFHeap h) : WFHeap (swapH h i j) := by
  constructor
  · intro k r
    rw [mapLookup_swapH, length_swapH, getE_swapH h i j hi hj r]
    by_cases hka : k = (getE h i).key
    · subst hka
      rw [if_pos rfl]
      constructor
      · rintro hr
        have hr' : r = j := (Option.some_inj.mp hr).symm
        subst hr'
        simp [hj]
      · rintro ⟨hr, hkey⟩
        by_cases hrj : r = j
        · rw [hrj]
        · rw [if_neg hrj] at hkey
          by_cases hri : r = i
          · rw [if_pos hri] at hkey
            have := hwf.key_inj hj hi hkey
            omega
          · rw [if_neg hri] at hkey
            have := hwf.key_inj hr hi hkey
            omega
    · rw [if_neg hka]
      by_cases hkb : k = (getE h j).key
      · subst hkb
        rw [if_pos rfl]
        constructor
        · rintro hr
          have hr' : r = i := (Option.some_inj.mp hr).symm
          subst hr'
          have hne : r ≠ j := by
            intro hc
            exact hka (by rw [hc])
          simp [hi, hne]
        · rintro ⟨hr, hkey⟩
          by_cases hrj : r = j
          · rw [if_pos hrj] at hkey
            exact absurd hkey.symm hka
          · rw [if_neg hrj] at hkey
            by_cases hri : r = i
            · rw [hri]
            · rw [if_neg hri] at hkey
              have := hwf.key_inj hr hj hkey
              omega
      · rw [if_neg hkb]
        rw [hwf.1 k r]
        constructor
        · rintro ⟨hr, hkey⟩
          have hri : r ≠ i := by
            intro hc; subst hc; exact hka hkey.symm
          have hrj : r ≠ j := by
            intro hc; subst hc; exact hkb hkey.symm
          rw [if_neg hrj, if_neg hri]
          exact ⟨hr, hkey⟩
        · rintro ⟨hr, hkey⟩
          by_cases hrj : r = j
          · rw [if_pos hrj] at hkey
            exact absurd hkey.symm hka
          · rw [if_neg hrj] at hkey
            by_cases hri : r = i
            · rw [if_pos hri] at hkey
              exact absurd hkey.symm hkb
            · rw [if_neg hri] at hkey
              exact ⟨hr, hkey⟩
  · exact nodupKeys_insert _ _ _ (nodupKeys_insert _ _ _ hwf.2)

theorem length_pushM (h : KeyExpirationMinHeap) (item : KeyExpiration) :
    (pushM h item).items.length = h.items.length + 1 := by
  simp [pushM]

theorem getE_pushM (h : KeyExpirationMinHeap) (item : KeyExpiration)
    (r : Nat) :
    getE (pushM h item) r =
      if r = h.items.length then item else getE h r := by
  unfold pushM getE
  simp only
  by_cases hr : r = h.items.length
  · subst hr
    rw [if_pos rfl, getD_concat_length]
  · rw [if_neg hr]
    rcases Nat.lt_or_ge r h.items.length with hlt | hge
    · rw [getD_append_lt _ _ _ _ hlt]
    · have hge' : h.items.length < r := lt_of_le_of_ne hge (fun hc => hr hc.symm)
      rw [getD_default _ _ _ (by simpa using hge'), getD_default _ _ _ (le_of_lt hge')]

theorem mapLookup_pushM (h : KeyExpirationMinHeap) (item : KeyExpiration)
    (k : ByteStr) :
    mapLookup (pushM h item).index k =
      if k = item.key then some h.items.length else mapLookup h.index k := by
  unfold pushM
  simp only
  rw [mapLookup_insert]

theorem WF_pushM (h : KeyExpirationMinHeap) (item : KeyExpiration)
    (hwf : WFHeap h) (hfresh : mapLookup h.index item.key = none) :
    WFHeap (pushM h item) := by
  constructor
  · intro k r
    rw [mapLookup_pushM, length_pushM, getE_pushM]
    by_cases hk : k = item.key
    · subst hk
      rw [if_pos rfl]
      constructor
      · intro hr
        have hr' : r = h.items.length := (Option.some_inj.mp hr).symm
        subst hr'
        simp
      · rintro ⟨hr, hkey⟩
        by_cases hrl : r = h.items.length
        · rw [hrl]
        · rw [if_neg hrl] at hkey
          have : mapLookup h.index (getE h r).key = some r :=
            hwf.lookup_self r (by omega)
          rw [hkey, hfresh] at this
          exact absurd this (by simp)
    · rw [if_neg hk]
      rw [hwf.1 k r]
      constructor
      · rintro ⟨hr, hkey⟩
        have hrl : r ≠ h.items.length := by omega
        rw [if_neg hrl]
        exact ⟨by omega, hkey⟩
      · rintro ⟨hr, hkey⟩
        by_cases hrl : r = h.items.length
        · rw [if_pos hrl] at hkey
          exact absurd hkey.symm hk
        · rw [if_neg hrl] at hkey
          exact ⟨by omega, hkey⟩
  · exact nodupKeys_insert _ _ _ hwf.2

theorem length_popM (h : KeyExpirationMinHeap) :
    (popM h).2.items.length = h.items.length - 1 := by
  simp [popM]

theorem fst_popM (h : KeyExpirationMinHeap) :
    (popM h).1 = getE h (h.items.length - 1) := rfl

theorem getE_popM (h : KeyExpirationMinHeap) (r : Nat)
    (hr : r < h.items.length - 1) : getE (popM h).2 r = getE h r := by
  unfold popM getE
  simp only
  rw [getD_dropLast _ _ _ hr]

theorem mapLookup_popM (h : KeyExpirationMinHeap) (k : ByteStr) :
    mapLookup (popM h).2.index k =
      if k = (getE h (h.items.length - 1)).key then none
      else mapLookup h.index k := by
  unfold popM
  simp only
  rw [mapLookup_erase]

theorem WF_popM (h : KeyExpirationMinHeap) (hwf : WFHeap h)
    (hlen : 0 < h.items.length) : WFHeap (popM h).2 := by
  constructor
  · intro k r
    rw [mapLookup_popM, length_popM]
    by_cases hk : k = (getE h (h.items.length - 1)).key
    · subst hk
      rw [if_pos rfl]
      constructor
      · intro hc
        exact absurd hc (by simp)
      · rintro ⟨hr, hkey⟩
        rw [getE_popM _ _ hr] at hkey
        have := hwf.key_inj (by omega) (by omega) hkey
        omega
    · rw [if_neg hk, hwf.1 k r]
      constructor
      · rintro ⟨hr, hkey⟩
        have hrl : r ≠ h.items.length - 1 := by
          intro hc; subst hc; exact hk hkey.symm
        have hr' : r < h.items.length - 1 := by omega
        rw [getE_popM _ _ hr']
        exact ⟨hr', hkey⟩
      · rintro ⟨hr, hkey⟩
        rw [getE_popM _ _ hr] at hkey
        exact ⟨by omega, hkey⟩
  · exact nodupKeys_erase _ _ hwf.2

theorem length_setStamp (h : KeyExpirationMinHeap) (idx : Nat) (ts : Int) :
    (setStamp h idx ts).items.length = h.items.length := by
  simp [setStamp]

theorem index_setStamp (h : KeyExpirationMinHeap) (idx : Nat) (ts : Int) :
    (setStamp h idx ts).index = h.index := rfl

theorem getE_setStamp (h : KeyExpirationMinHeap) (idx : Nat) (ts : Int)
    (r : Nat) :
    getE (setStamp h idx ts) r =
      if r = idx ∧ idx < h.items.length then ⟨(getE h idx).key, ts⟩
      else getE h r := by
  unfold setStamp getE
  simp only
  by_cases hr : r = idx
  · subst hr
    by_cases hi : r < h.items.length
    · rw [if_pos ⟨rfl, hi⟩, getD_set_eq _ _ _ _ hi]
    · rw [if_neg (by tauto), List.set_eq_of_length_le (by omega)]
  · rw [if_neg (by tauto), getD_set_ne _ _ _ _ _ (fun hc => hr hc.symm)]

theorem getE_setStamp_key (h : KeyExpirationMinHeap) (idx : Nat) (ts : Int)
    (r : Nat) : (getE (setStamp h idx ts) r).key = (getE h r).key := by
  rw [getE_setStamp]
  split
  · rename_i hcond
    rw [hcond.1]
  · rfl

theorem WF_setStamp (h : KeyExpirationMinHeap) (idx : Nat) (ts : Int)
    (hwf : WFHeap h) : WFHeap (setStamp h idx ts) := by
  constructor
  · intro k r
    rw [index_setStamp, length_setStamp, getE_setStamp_key, hwf.1 k r]
  · exact hwf.2

/-! ### `FindExpiration` is invariant under the internal sift
operations: they permute slots but never change which timestamp a key
maps to. -/

theorem FindExp_swapH (h : KeyExpirationMinHeap) (i j : Nat)
    (hi : i < h.items.length) (hj : j < h.items.length) (hwf : WFHeap h)
    (k : ByteStr) :
    (swapH h i j).FindExpiration k = h.FindExpiration k := by
  unfold KeyExpirationMinHeap.FindExpiration
  rw [mapLookup_swapH]
  by_cases hka : k = (getE h i).key
  · subst hka
    rw [if_pos rfl, hwf.lookup_self i hi]
    simp only [Option.map_some']
    unfold tsAt
    rw [getE_swapH h i j hi hj j, if_pos rfl]
  · rw [if_neg hka]
    by_cases hkb : k = (getE h j).key
    · subst hkb
      rw [if_pos rfl, hwf.lookup_self j hj]
      simp only [Option.map_some']
      unfold tsAt
      have hij : i ≠ j := by
        intro hc; subst hc; exact hka rfl
      rw [getE_swapH h i j hi hj i, if_neg hij, if_pos rfl]
    · rw [if_neg hkb]
      cases hlk : mapLookup h.index k with
      | none => simp
      | some r =>
        simp only [Option.map_some', Option.some_inj]
        obtain ⟨hr, hkey⟩ := (hwf.1 k r).1 hlk
        have hri : r ≠ i := by
          intro hc; subst hc; exact hka hkey.symm
        have hrj : r ≠ j := by
          intro hc; subst hc; exact hkb hkey.symm
        unfold tsAt
        rw [getE_swapH h i j hi hj r, if_neg hrj, if_neg hri]

/-- `up` preserves well-formedness, the length, every key's
`FindExpiration` and every slot strictly above `j`. -/
theorem upH_wf (h : KeyExpirationMinHeap) (j : Nat)
    (hj : j < h.items.length) (hwf : WFHeap h) :
    WFHeap (upH h j) ∧ (upH h j).items.length = h.items.length ∧
    (∀ k, (upH h j).FindExpiration k = h.FindExpiration k) ∧
    (∀ r, j < r → getE (upH h j) r = getE h r) := by
  rw [upH]
  split
  · exact ⟨hwf, rfl, fun _ => rfl, fun _ _ => rfl⟩
  · rename_i hcond
    push_neg at hcond
    have hpj : parentIdx j < j := by
      have := hcond.1
      unfold parentIdx at this ⊢
      omega
    have hpi : parentIdx j < h.items.length := lt_trans hpj hj
    have hwf' := WF_swapH h (parentIdx j) j hpi hj hwf
    have hlen := length_swapH h (parentIdx j) j
    have IH := upH_wf (swapH h (parentIdx j) j) (parentIdx j)
      (by rw [hlen]; exact hpi) hwf'
    refine ⟨IH.1, ?_, ?_, ?_⟩
    · rw [IH.2.1, hlen]
    · intro k
      rw [IH.2.2.1 k, FindExp_swapH h (parentIdx j) j hpi hj hwf k]
    · intro r hr
      rw [IH.2.2.2 r (lt_trans hpj hr),
        getE_swapH h (parentIdx j) j hpi hj r,
        if_neg (by omega), if_neg (by omega)]
termination_by j

/-- `down` preserves well-formedness, the length, every key's
`FindExpiration` and every slot at or above the bound `n`; the final
slot is at least the starting slot. -/
theorem downLoop_wf (h : KeyExpirationMinHeap) (i n : Nat)
    (hn : n ≤ h.items.length) (hwf : WFHeap h) :
    WFHeap (downLoop h i n).1 ∧
    (downLoop h i n).1.items.length = h.items.length ∧
    (∀ k, (downLoop h i n).1.FindExpiration k = h.FindExpiration k) ∧
    (∀ r, n ≤ r → getE (downLoop h i n).1 r = getE h r) ∧
    i ≤ (downLoop h i n).2 := by
  rw [downLoop]
  split
  · exact ⟨hwf, rfl, fun _ => rfl, fun _ _ => rfl, le_refl i⟩
  · rename_i hj1
    simp only [ge_iff_le, not_le] at hj1
    split
    · exact ⟨hwf, rfl, fun _ => rfl, fun _ _ => rfl, le_refl i⟩
    · have hi : i < n := by omega
      have hm := minChild_gt h i n
      have hmn := minChild_lt h i n hj1
      have hwf' := WF_swapH h i (minChild h i n) (by omega) (by omega) hwf
      have hlen := length_swapH h i (minChild h i n)
      have IH := downLoop_wf (swapH h i (minChild h i n)) (minChild h i n) n
        (by rw [hlen]; exact hn) hwf'
      refine ⟨IH.1, ?_, ?_, ?_, ?_⟩
      · rw [IH.2.1, hlen]
      · intro k
        rw [IH.2.2.1 k,
          FindExp_swapH h i (minChild h i n) (by omega) (by omega) hwf k]
      · intro r hr
        rw [IH.2.2.2.1 r hr,
          getE_swapH h i (minChild h i n) (by omega) (by omega) r,
          if_neg (by omega), if_neg (by omega)]
      · exact le_trans (le_of_lt hm) IH.2.2.2.2
termination_by n - i
decreasing_by
  omega

/-! ### Behavior of the public heap API -/

theorem FindExp_pushM (h : KeyExpirationMinHeap) (item : KeyExpiration)
    (hwf : WFHeap h) (k : ByteStr) :
    (pushM h item).FindExpiration k =
      if k = item.key then some item.expire_timestamp
      else h.FindExpiration k := by
  unfold KeyExpirationMinHeap.FindExpiration
  rw [mapLookup_pushM]
  by_cases hk : k = item.key
  · subst hk
    rw [if_pos rfl, if_pos rfl]
    simp only [Option.map_some', Option.some_inj]
    unfold tsAt
    rw [getE_pushM, if_pos rfl]
  · rw [if_neg hk, if_neg hk]
    cases hlk : mapLookup h.index k with
    | none => simp
    | some r =>
      simp only [Option.map_some', Option.some_inj]
      obtain ⟨hr, _⟩ := (hwf.1 k r).1 hlk
      unfold tsAt
      rw [getE_pushM, if_neg (by omega)]

theorem heapPush_spec (h : KeyExpirationMinHeap) (item : KeyExpiration)
    (hwf : WFHeap h) (hfresh : mapLookup h.index item.key = none) :
    WFHeap (heapPush h item) ∧
    (heapPush h item).items.length = h.items.length + 1 ∧
    (∀ k, (heapPush h item).FindExpiration k =
      if k = item.key then some item.expire_timestamp
      else h.FindExpiration k) := by
  unfold heapPush
  have hwf1 := WF_pushM h item hwf hfresh
  have hl1 := length_pushM h item
  have hup := upH_wf (pushM h item) ((pushM h item).items.length - 1)
    (by omega) hwf1
  refine ⟨hup.1, by omega, ?_⟩
  intro k
  rw [hup.2.2.1 k, FindExp_pushM h item hwf k]

theorem heapFix_spec (h : KeyExpirationMinHeap) (i : Nat)
    (hi : i < h.items.length) (hwf : WFHeap h) :
    WFHeap (heapFix h i) ∧
    (heapFix h i).items.length = h.items.length ∧
    (∀ k, (heapFix h i).FindExpiration k = h.FindExpiration k) := by
  unfold heapFix downH
  simp only
  have hdn := downLoop_wf h i h.items.length (le_refl _) hwf
  split
  · exact ⟨hdn.1, hdn.2.1, hdn.2.2.1⟩
  · have hup := upH_wf (downLoop h i h.items.length).1 i
      (by rw [hdn.2.1]; exact hi) hdn.1
    refine ⟨hup.1, ?_, ?_⟩
    · rw [hup.2.1, hdn.2.1]
    · intro k
      rw [hup.2.2.1 k, hdn.2.2.1 k]

theorem FindExp_setStamp (h : KeyExpirationMinHeap) (idx : Nat) (ts : Int)
    (hwf : WFHeap h) (hidx : idx < h.items.length) (k : ByteStr) :
    (setStamp h idx ts).FindExpiration k =
      if k = (getE h idx).key then some ts else h.FindExpiration k := by
  unfold KeyExpirationMinHeap.FindExpiration
  rw [index_setStamp]
  by_cases hk : k = (getE h idx).key
  · subst hk
    rw [if_pos rfl, hwf.lookup_self idx hidx]
    simp only [Option.map_some', Option.some_inj]
    unfold tsAt
    rw [getE_setStamp, if_pos ⟨rfl, hidx⟩]
  · rw [if_neg hk]
    cases hlk : mapLookup h.index k with
    | none => simp
    | some r =>
      simp only [Option.map_some', Option.some_inj]
      obtain ⟨hr, hkey⟩ := (hwf.1 k r).1 hlk
      have hri : r ≠ idx := by
        intro hc; subst hc; exact hk hkey.symm
      unfold tsAt
      rw [getE_setStamp, if_neg (by tauto)]

/-- `PushItem` always leaves a well-formed heap and maps the pushed key
to the pushed timestamp, leaving every other key's deadline unchanged;
the length grows exactly when the key was absent. -/
theorem PushItem_spec (h : KeyExpirationMinHeap) (item : KeyExpiration)
    (hwf : WFHeap h) :
    WFHeap (h.PushItem item) ∧
    (∀ k, (h.PushItem item).FindExpiration k =
      if k = item.key then some item.expire_timestamp
      else h.FindExpiration k) ∧
    (h.PushItem item).items.length =
      (if (mapLookup h.index item.key).isSome then h.items.length
       else h.items.length + 1) := by
  unfold KeyExpirationMinHeap.PushItem
  cases hlk : mapLookup h.index item.key with
  | none =>
    have hp := heapPush_spec h item hwf hlk
    exact ⟨hp.1, hp.2.2, by simp [hp.2.1]⟩
  | some idx =>
    obtain ⟨hidx, hkey⟩ := (hwf.1 item.key idx).1 hlk
    have hwfs := WF_setStamp h idx item.expire_timestamp hwf
    have hfix := heapFix_spec (setStamp h idx item.expire_timestamp) idx
      (by rw [length_setStamp]; exact hidx) hwfs
    refine ⟨hfix.1, ?_, by simp [hfix.2.1, length_setStamp]⟩
    intro k
    rw [hfix.2.2 k, FindExp_setStamp h idx item.expire_timestamp hwf hidx k,
      hkey]

theorem FindExp_popM (h : KeyExpirationMinHeap) (hwf : WFHeap h)
    (hlen : 0 < h.items.length) (k : ByteStr) :
    (popM h).2.FindExpiration k =
      if k = (getE h (h.items.length - 1)).key then none
      else h.FindExpiration k := by
  unfold KeyExpirationMinHeap.FindExpiration
  rw [mapLookup_popM]
  by_cases hk : k = (getE h (h.items.length - 1)).key
  · rw [if_pos hk, if_pos hk]
    rfl
  · rw [if_neg hk, if_neg hk]
    cases hlk : mapLookup h.index k with
    | none => simp
    | some r =>
      simp only [Option.map_some', Option.some_inj]
      obtain ⟨hr, hkey⟩ := (hwf.1 k r).1 hlk
      have hrl : r ≠ h.items.length - 1 := by
        intro hc; subst hc; exact hk hkey.symm
      unfold tsAt
      rw [getE_popM _ _ (by omega)]

/-- `PopMin` on a non-empty well-formed heap returns the root entry and
removes exactly its key. -/
theorem PopMin_spec (h : KeyExpirationMinHeap) (hwf : WFHeap h)
    (hne : h.items.length ≠ 0) :
    h.PopMin.1 = some (getE h 0) ∧
    WFHeap h.PopMin.2 ∧
    h.PopMin.2.items.length = h.items.length - 1 ∧
    (∀ k, h.PopMin.2.FindExpiration k =
      if k = (getE h 0).key then none else h.FindExpiration k) := by
  unfold KeyExpirationMinHeap.PopMin heapPop
  rw [if_neg hne]
  simp only
  set n := h.items.length - 1 with hn
  have h0 : 0 < h.items.length := by omega
  have hnl : n < h.items.length := by omega
  have hwf1 := WF_swapH h 0 n h0 hnl hwf
  have hl1 := length_swapH h 0 n
  have hdn := downLoop_wf (swapH h 0 n) 0 n (by omega) hwf1
  have hwf2 := hdn.1
  have hl2 := hdn.2.1
  have hgn : getE (downLoop (swapH h 0 n) 0 n).1 n = getE h 0 := by
    rw [hdn.2.2.2.1 n (le_refl n), getE_swapH h 0 n h0 hnl n, if_pos rfl]
  have hlen2 : (downLoop (swapH h 0 n) 0 n).1.items.length = h.items.length := by
    rw [hl2, hl1]
  refine ⟨?_, ?_, ?_, ?_⟩
  · rw [fst_popM, hlen2, ← hn, hgn]
  · exact WF_popM _ hwf2 (by omega)
  · rw [length_popM, hlen2]
  · intro k
    rw [FindExp_popM _ hwf2 (by omega) k, hlen2, ← hn, hgn,
      hdn.2.2.1 k, FindExp_swapH h 0 n h0 hnl hwf k]

/-- `Remove` on a well-formed heap: for a present key it returns the
entry at that key's slot and removes exactly that key; for an absent
key it is a no-op. -/
theorem Remove_spec (h : KeyExpirationMinHeap) (key : ByteStr)
    (idx : Nat) (hwf : WFHeap h) (hlk : mapLookup h.index key = some idx) :
    (h.Remove key).1 = some (getE h idx) ∧
    WFHeap (h.Remove key).2 ∧
    (h.Remove key).2.items.length = h.items.length - 1 ∧
    (∀ k, (h.Remove key).2.FindExpiration k =
      if k = key then none else h.FindExpiration k) := by
  obtain ⟨hidx, hkey⟩ := (hwf.1 key idx).1 hlk
  unfold KeyExpirationMinHeap.Remove
  rw [hlk]
  simp only
  unfold heapRemove
  by_cases hin : idx = h.items.length - 1
  · rw [if_neg (by omega)]
    refine ⟨?_, ?_, ?_, ?_⟩
    · rw [fst_popM, hin]
    · exact WF_popM h hwf (by omega)
    · rw [length_popM]
    · intro k
      rw [FindExp_popM h hwf (by omega) k, ← hin, hkey]
  · rw [if_pos hin]
    set n := h.items.length - 1 with hn
    have hidn : idx < n := by omega
    have hnl : n < h.items.length := by omega
    have hwf1 := WF_swapH h idx n hidx hnl hwf
    have hl1 := length_swapH h idx n
    have hdn := downLoop_wf (swapH h idx n) idx n (by omega) hwf1
    unfold downH
    simp only
    have hgn1 : getE (downLoop (swapH h idx n) idx n).1 n = getE h idx := by
      rw [hdn.2.2.2.1 n (le_refl n), getE_swapH h idx n hidx hnl n, if_pos rfl]
    split
    · refine ⟨?_, ?_, ?_, ?_⟩
      · rw [fst_popM, hdn.2.1, hl1, ← hn, hgn1]
      · exact WF_popM _ hdn.1 (by omega)
      · rw [length_popM, hdn.2.1, hl1]
      · intro k
        rw [FindExp_popM _ hdn.1 (by omega) k, hdn.2.1, hl1, ← hn, hgn1, hkey,
          hdn.2.2.1 k, FindExp_swapH h idx n hidx hnl hwf k]
    · have hup := upH_wf (downLoop (swapH h idx n) idx n).1 idx
        (by rw [hdn.2.1, hl1]; omega) hdn.1
      have hgn2 : getE (upH (downLoop (swapH h idx n) idx n).1 idx) n
          = getE h idx := by
        rw [hup.2.2.2 n (by omega), hgn1]
      have hlup : (upH (downLoop (swapH h idx n) idx n).1 idx).items.length
          = h.items.length := by
        rw [hup.2.1, hdn.2.1, hl1]
      refine ⟨?_, ?_, ?_, ?_⟩
      · rw [fst_popM, hlup, ← hn, hgn2]
      · exact WF_popM _ hup.1 (by omega)
      · rw [length_popM, hlup]
      · intro k
        rw [FindExp_popM _ hup.1 (by omega) k, hlup, ← hn, hgn2, hkey,
          hup.2.2.1 k, hdn.2.2.1 k, FindExp_swapH h idx n hidx hnl hwf k]

theorem Remove_absent (h : KeyExpirationMinHeap) (key : ByteStr)
    (hlk : mapLookup h.index key = none) : h.Remove key = (none, h) := by
  unfold KeyExpirationMinHeap.Remove
  rw [hlk]

/-! ### The heap-order invariant -/

/-- Prefix heap order: every non-root slot below `n` is at least its
parent. -/
def IsHeapUpTo (h : KeyExpirationMinHeap) (n : Nat) : Prop :=
  ∀ b, 0 < b → b < n → tsAt h (parentIdx b) ≤ tsAt h b

/-- The heap order on the whole backing slice. -/
def IsHeap (h : KeyExpirationMinHeap) : Prop :=
  IsHeapUpTo h h.items.length

theorem parentIdx_lt (j : Nat) (h : 0 < j) : parentIdx j < j := by
  unfold parentIdx; omega

theorem parentIdx_eq_self (j : Nat) : parentIdx j = j ↔ j = 0 := by
  unfold parentIdx; omega

theorem child_of_parentIdx (c i : Nat) (hc : 0 < c) (h : parentIdx c = i) :
    c = 2 * i + 1 ∨ c = 2 * i + 2 := by
  unfold parentIdx at h; omega

theorem parentIdx_child_left (i : Nat) : parentIdx (2 * i + 1) = i := by
  unfold parentIdx; omega

theorem parentIdx_child_right (i : Nat) : parentIdx (2 * i + 2) = i := by
  unfold parentIdx; omega

/-- When `down` stops because the smaller child is not below the
current slot, the current slot is at most every in-range child. -/
theorem minChild_le (h : KeyExpirationMinHeap) (j n : Nat)
    (_hj1 : 2 * j + 1 < n) (hle : ¬ lessH h (minChild h j n) j) :
    ∀ b, 0 < b → b < n → parentIdx b = j → tsAt h j ≤ tsAt h b := by
  intro b hb0 hbn hpb
  have hb := child_of_parentIdx b j hb0 hpb
  unfold minChild at hle
  unfold lessH at hle
  split at hle
  · rename_i hcond
    have h1 : tsAt h (2 * j + 2) < tsAt h (2 * j + 1) := hcond.2
    rcases hb with hb | hb <;> subst hb <;> omega
  · rename_i hcond
    rcases hb with hb | hb
    · subst hb; omega
    · subst hb
      push_neg at hcond
      have h2 := hcond (by omega)
      unfold lessH at h2
      omega

/-- The smaller child really is at most every in-range child. -/
theorem minChild_min (h : KeyExpirationMinHeap) (j n : Nat)
    (_hj1 : 2 * j + 1 < n) :
    ∀ b, 0 < b → b < n → parentIdx b = j →
      tsAt h (minChild h j n) ≤ tsAt h b := by
  intro b hb0 hbn hpb
  have hb := child_of_parentIdx b j hb0 hpb
  unfold minChild
  split
  · rename_i hcond
    have h1 : tsAt h (2 * j + 2) < tsAt h (2 * j + 1) := hcond.2
    rcases hb with hb | hb <;> subst hb <;> omega
  · rename_i hcond
    rcases hb with hb | hb
    · subst hb; omega
    · subst hb
      push_neg at hcond
      have h2 := hcond (by omega)
      unfold lessH at h2
      omega

/-- The final slot of `down` never precedes the starting slot. -/
theorem downLoop_fin_ge (h : KeyExpirationMinHeap) (i n : Nat) :
    i ≤ (downLoop h i n).2 := by
  rw [downLoop]
  split
  · exact le_refl i
  · split
    · exact le_refl i
    · have h1 := minChild_gt h i n
      have h2 := downLoop_fin_ge (swapH h i (minChild h i n)) (minChild h i n) n
      omega
termination_by n - i
decreasing_by
  rename_i hj1 _
  simp only [ge_iff_le, not_le] at hj1
  have := minChild_lt h i n hj1
  omega

/-- Pointwise timestamps after a swap. -/
theorem tsAt_swapH (h : KeyExpirationMinHeap) (i j : Nat)
    (hi : i < h.items.length) (hj : j < h.items.length) (r : Nat) :
    tsAt (swapH h i j) r =
      if r = j then tsAt h i else if r = i then tsAt h j else tsAt h r := by
  unfold tsAt
  rw [getE_swapH h i j hi hj r]
  split
  · rfl
  · split <;> rfl

/-- Sift-up correctness: if every parent-child edge below `n` except
the one into `j` holds, and `j`'s parent is at most `j`'s children,
then after `up` the whole prefix is heap-ordered. -/
theorem upH_order (h : KeyExpirationMinHeap) (n j : Nat)
    (hj : j < n) (hn : n ≤ h.items.length)
    (H1 : ∀ b, 0 < b → b < n → b ≠ j → tsAt h (parentIdx b) ≤ tsAt h b)
    (H2 : ∀ c, 0 < c → c < n → parentIdx c = j → 0 < j →
      tsAt h (parentIdx j) ≤ tsAt h c) :
    IsHeapUpTo (upH h j) n := by
  rw [upH]
  split
  · rename_i hcond
    intro b hb0 hbn
    by_cases hbj : b = j
    · subst hbj
      rcases hcond with hij | hnl
      · have hj0 : b = 0 := (parentIdx_eq_self b).1 hij
        omega
      · unfold lessH at hnl
        omega
    · exact H1 b hb0 hbn hbj
  · rename_i hcond
    push_neg at hcond
    obtain ⟨hne, hless⟩ := hcond
    have hj0 : 0 < j := by
      rcases Nat.eq_zero_or_pos j with hz | hp
      · exact absurd ((parentIdx_eq_self j).2 hz) hne
      · exact hp
    have hpj : parentIdx j < j := parentIdx_lt j hj0
    have hpjn : parentIdx j < n := lt_trans hpj hj
    have hpl : parentIdx j < h.items.length := by omega
    have hjl : j < h.items.length := by omega
    have hlsw := length_swapH h (parentIdx j) j
    have htsj : tsAt (swapH h (parentIdx j) j) j = tsAt h (parentIdx j) := by
      rw [tsAt_swapH h (parentIdx j) j hpl hjl j, if_pos rfl]
    have htsp : tsAt (swapH h (parentIdx j) j) (parentIdx j) = tsAt h j := by
      rw [tsAt_swapH h (parentIdx j) j hpl hjl (parentIdx j),
        if_neg (by omega), if_pos rfl]
    have htso : ∀ r, r ≠ j → r ≠ parentIdx j →
        tsAt (swapH h (parentIdx j) j) r = tsAt h r := by
      intro r h1 h2
      rw [tsAt_swapH h (parentIdx j) j hpl hjl r, if_neg h1, if_neg h2]
    have hlessv : tsAt h j < tsAt h (parentIdx j) := hless
    apply upH_order (swapH h (parentIdx j) j) n (parentIdx j) hpjn
      (by omega)
    · -- H1 for the swapped state at the parent slot
      intro b hb0 hbn hbp
      by_cases hbj : b = j
      · subst hbj
        rw [htsj]
        have : parentIdx b = parentIdx b := rfl
        rw [show parentIdx b = parentIdx b from rfl, htsp]
        omega
      · by_cases hpbj : parentIdx b = j
        · -- b is a child of j
          have hbgt : j < b := by
            have := parentIdx_lt b hb0
            omega
          rw [hpbj, htsj, htso b hbj (by omega)]
          have := H2 b hb0 hbn hpbj hj0
          omega
        · by_cases hpbp : parentIdx b = parentIdx j
          · -- b is a sibling of j
            rw [hpbp, htsp, htso b hbj hbp]
            have := H1 b hb0 hbn hbj
            rw [hpbp] at this
            omega
          · rw [htso b hbj hbp, htso (parentIdx b) hpbj hpbp]
            exact H1 b hb0 hbn hbj
    · -- H2 for the swapped state at the parent slot
      intro c hc0 hcn hpc hp0
      have hcgt : parentIdx j < c := by
        have := parentIdx_lt c hc0
        omega
      have hppj : parentIdx (parentIdx j) < parentIdx j := parentIdx_lt _ hp0
      rw [htso (parentIdx (parentIdx j)) (by omega) (by omega)]
      by_cases hcj : c = j
      · subst hcj
        rw [htsj]
        have := H1 (parentIdx c) hp0 (by omega) (by omega)
        omega
      · rw [htso c hcj (by omega)]
        have h1 := H1 (parentIdx j) hp0 (by omega) (by omega)
        have h2 := H1 c hc0 hcn hcj
        rw [hpc] at h2
        omega
termination_by j
decreasing_by
  exact hpj


theorem parentIdx_minChild (h : KeyExpirationMinHeap) (j n : Nat) :
    parentIdx (minChild h j n) = j := by
  unfold minChild
  split
  · exact parentIdx_child_right j
  · exact parentIdx_child_left j

/-- Sift-down correctness after the element has moved at least once:
if every edge whose parent is not the current slot holds (including
the edge into the current slot), and the current slot's parent is at
most its children, then `down` leaves the prefix heap-ordered. -/
theorem downLoop_order_moved (h : KeyExpirationMinHeap) (j n : Nat)
    (hj : j < n) (hn : n ≤ h.items.length)
    (E1 : ∀ b, 0 < b → b < n → parentIdx b ≠ j →
      tsAt h (parentIdx b) ≤ tsAt h b)
    (E2 : ∀ c, 0 < c → c < n → parentIdx c = j → 0 < j →
      tsAt h (parentIdx j) ≤ tsAt h c) :
    IsHeapUpTo (downLoop h j n).1 n := by
  rw [downLoop]
  split
  · rename_i hj1
    simp only [ge_iff_le] at hj1
    intro b hb0 hbn
    show tsAt h (parentIdx b) ≤ tsAt h b
    by_cases hpb : parentIdx b = j
    · have := child_of_parentIdx b j hb0 hpb
      omega
    · exact E1 b hb0 hbn hpb
  · rename_i hj1
    simp only [ge_iff_le, not_le] at hj1
    split
    · rename_i hnl
      intro b hb0 hbn
      show tsAt h (parentIdx b) ≤ tsAt h b
      by_cases hpb : parentIdx b = j
      · rw [hpb]
        exact minChild_le h j n hj1 hnl b hb0 hbn hpb
      · exact E1 b hb0 hbn hpb
    · rename_i hnl
      have hless : lessH h (minChild h j n) j := not_not.mp hnl
      have hmgt := minChild_gt h j n
      have hmlt := minChild_lt h j n hj1
      have hjl : j < h.items.length := by omega
      have hml : minChild h j n < h.items.length := by omega
      have hpm := parentIdx_minChild h j n
      have htsm : tsAt (swapH h j (minChild h j n)) (minChild h j n)
          = tsAt h j := by
        rw [tsAt_swapH h j (minChild h j n) hjl hml, if_pos rfl]
      have htsj : tsAt (swapH h j (minChild h j n)) j = tsAt h (minChild h j n) := by
        rw [tsAt_swapH h j (minChild h j n) hjl hml, if_neg (by omega),
          if_pos rfl]
      have htso : ∀ r, r ≠ j → r ≠ minChild h j n →
          tsAt (swapH h j (minChild h j n)) r = tsAt h r := by
        intro r h1 h2
        rw [tsAt_swapH h j (minChild h j n) hjl hml, if_neg h2, if_neg h1]
      have hlessv : tsAt h (minChild h j n) < tsAt h j := hless
      apply downLoop_order_moved (swapH h j (minChild h j n)) (minChild h j n)
        n hmlt (by rw [length_swapH]; exact hn)
      · intro b hb0 hbn hpb
        by_cases hbj : b = j
        · subst hbj
          have hb0' : 0 < b := hb0
          have hpbj : parentIdx b < b := parentIdx_lt b hb0
          rw [htsj, htso (parentIdx b) (by omega) (by omega)]
          exact E2 (minChild h b n) (by omega) (by omega) hpm hb0
        · by_cases hbm : b = minChild h j n
          · subst hbm
            rw [hpm, htsj, htsm]
            omega
          · by_cases hpbj : parentIdx b = j
            · rw [hpbj, htsj, htso b hbj hbm]
              exact minChild_min h j n hj1 b hb0 hbn hpbj
            · rw [htso b hbj hbm, htso (parentIdx b) hpbj hpb]
              exact E1 b hb0 hbn hpbj
      · intro c hc0 hcn hpc h0m
        have hcm : minChild h j n < c := by
          have := parentIdx_lt c hc0
          omega
        rw [hpm, htsj, htso c (by omega) (by omega)]
        have := E1 c hc0 hcn (by omega)
        rw [hpc] at this
        exact this
termination_by n - j
decreasing_by
  omega

/-- Sift-down correctness from a state that is heap-ordered except
possibly at the starting slot: either the element does not move (the
state is unchanged and the slot is at most its children), or the
prefix ends up heap-ordered. -/
theorem downLoop_order (h : KeyExpirationMinHeap) (i0 n : Nat)
    (hi : i0 < n) (hn : n ≤ h.items.length)
    (D1 : ∀ b, 0 < b → b < n → b ≠ i0 → parentIdx b ≠ i0 →
      tsAt h (parentIdx b) ≤ tsAt h b)
    (D2 : ∀ c, 0 < c → c < n → parentIdx c = i0 → 0 < i0 →
      tsAt h (parentIdx i0) ≤ tsAt h c) :
    ((downLoop h i0 n).2 = i0 → (downLoop h i0 n).1 = h ∧
      (∀ c, 0 < c → c < n → parentIdx c = i0 → tsAt h i0 ≤ tsAt h c)) ∧
    ((downLoop h i0 n).2 ≠ i0 → IsHeapUpTo (downLoop h i0 n).1 n) := by
  rw [downLoop]
  split
  · rename_i hj1
    simp only [ge_iff_le] at hj1
    constructor
    · intro _
      refine ⟨rfl, ?_⟩
      intro c hc0 hcn hpc
      have := child_of_parentIdx c i0 hc0 hpc
      omega
    · intro hne
      exact absurd rfl hne
  · rename_i hj1
    simp only [ge_iff_le, not_le] at hj1
    split
    · rename_i hnl
      constructor
      · intro _
        exact ⟨rfl, minChild_le h i0 n hj1 hnl⟩
      · intro hne
        exact absurd rfl hne
    · rename_i hnl
      have hless : lessH h (minChild h i0 n) i0 := not_not.mp hnl
      have hmgt := minChild_gt h i0 n
      have hmlt := minChild_lt h i0 n hj1
      have hil : i0 < h.items.length := by omega
      have hml : minChild h i0 n < h.items.length := by omega
      have hpm := parentIdx_minChild h i0 n
      have htsm : tsAt (swapH h i0 (minChild h i0 n)) (minChild h i0 n)
          = tsAt h i0 := by
        rw [tsAt_swapH h i0 (minChild h i0 n) hil hml, if_pos rfl]
      have htsj : tsAt (swapH h i0 (minChild h i0 n)) i0
          = tsAt h (minChild h i0 n) := by
        rw [tsAt_swapH h i0 (minChild h i0 n) hil hml, if_neg (by omega),
          if_pos rfl]
      have htso : ∀ r, r ≠ i0 → r ≠ minChild h i0 n →
          tsAt (swapH h i0 (minChild h i0 n)) r = tsAt h r := by
        intro r h1 h2
        rw [tsAt_swapH h i0 (minChild h i0 n) hil hml, if_neg h2, if_neg h1]
      have hlessv : tsAt h (minChild h i0 n) < tsAt h i0 := hless
      have hmoved := downLoop_order_moved (swapH h i0 (minChild h i0 n))
        (minChild h i0 n) n hmlt (by rw [length_swapH]; exact hn)
        (by
          intro b hb0 hbn hpb
          by_cases hbj : b = i0
          · subst hbj
            have hpbi : parentIdx b < b := parentIdx_lt b hb0
            rw [htsj, htso (parentIdx b) (by omega) (by omega)]
            exact D2 (minChild h b n) (by omega) (by omega) hpm hb0
          · by_cases hbm : b = minChild h i0 n
            · subst hbm
              rw [hpm, htsj, htsm]
              omega
            · by_cases hpbi : parentIdx b = i0
              · rw [hpbi, htsj, htso b hbj hbm]
                exact minChild_min h i0 n hj1 b hb0 hbn hpbi
              · rw [htso b hbj hbm, htso (parentIdx b) hpbi hpb]
                exact D1 b hb0 hbn hbj hpbi)
        (by
          intro c hc0 hcn hpc h0m
          have hcm : minChild h i0 n < c := by
            have := parentIdx_lt c hc0
            omega
          rw [hpm, htsj, htso c (by omega) (by omega)]
          have := D1 c hc0 hcn (by omega) (by omega)
          rw [hpc] at this
          exact this)
      have hge := downLoop_fin_ge (swapH h i0 (minChild h i0 n))
        (minChild h i0 n) n
      constructor
      · intro hfin
        exfalso
        omega
      · intro _
        exact hmoved

/-! ### Heap order preservation through the public operations -/

theorem length_upH (h : KeyExpirationMinHeap) (j : Nat) :
    (upH h j).items.length = h.items.length := by
  rw [upH]
  split
  · rfl
  · rw [length_upH, length_swapH]
termination_by j
decreasing_by
  rename_i hcond
  push_neg at hcond
  have hne := hcond.1
  unfold parentIdx at hne ⊢
  omega

theorem length_downLoop (h : KeyExpirationMinHeap) (i n : Nat) :
    (downLoop h i n).1.items.length = h.items.length := by
  rw [downLoop]
  split
  · rfl
  · split
    · rfl
    · rw [length_downLoop, length_swapH]
termination_by n - i
decreasing_by
  rename_i hj1 _
  simp only [ge_iff_le, not_le] at hj1
  have h1 := minChild_gt h i n
  have h2 := minChild_lt h i n hj1
  omega

theorem tsAt_pushM (h : KeyExpirationMinHeap) (item : KeyExpiration)
    (r : Nat) :
    tsAt (pushM h item) r =
      if r = h.items.length then item.expire_timestamp else tsAt h r := by
  unfold tsAt
  rw [getE_pushM]
  split
  · rfl
  · rfl

theorem tsAt_setStamp (h : KeyExpirationMinHeap) (idx : Nat) (ts : Int)
    (r : Nat) :
    tsAt (setStamp h idx ts) r =
      if r = idx ∧ idx < h.items.length then ts else tsAt h r := by
  unfold tsAt
  rw [getE_setStamp]
  split
  · rfl
  · rfl

theorem tsAt_popM (h : KeyExpirationMinHeap) (r : Nat)
    (hr : r < h.items.length - 1) : tsAt (popM h).2 r = tsAt h r := by
  unfold tsAt
  rw [getE_popM h r hr]

/-- Removing the last slot of a prefix-ordered heap keeps it
heap-ordered. -/
theorem isHeapUpTo_popM (h : KeyExpirationMinHeap)
    (hh : IsHeapUpTo h (h.items.length - 1)) : IsHeap (popM h).2 := by
  intro b hb0 hbn
  rw [length_popM] at hbn
  have hpb : parentIdx b < b := parentIdx_lt b hb0
  rw [tsAt_popM h b hbn, tsAt_popM h (parentIdx b) (by omega)]
  exact hh b hb0 hbn

/-- `heap.Push` preserves the heap order. -/
theorem heapPush_isHeap (h : KeyExpirationMinHeap) (item : KeyExpiration)
    (hheap : IsHeap h) : IsHeap (heapPush h item) := by
  unfold IsHeap
  have hlen := length_pushM h item
  rw [heapPush, length_upH, hlen, Nat.add_sub_cancel]
  apply upH_order (pushM h item) (h.items.length + 1) h.items.length
    (by omega) (by omega)
  · intro b hb0 hbn hbj
    have hbl : b < h.items.length := by omega
    have hpb : parentIdx b < b := parentIdx_lt b hb0
    rw [tsAt_pushM, tsAt_pushM, if_neg (by omega), if_neg (by omega)]
    exact hheap b hb0 hbl
  · intro c hc0 hcn hpc hj0
    have := child_of_parentIdx c (h.items.length) hc0 hpc
    omega

/-- `heap.Fix` restores the heap order after an arbitrary timestamp
change at slot `i`, provided every edge not touching `i` holds and
`i`'s parent is at most `i`'s children. -/
theorem heapFix_order (h : KeyExpirationMinHeap) (i : Nat)
    (hi : i < h.items.length)
    (D1 : ∀ b, 0 < b → b < h.items.length → b ≠ i → parentIdx b ≠ i →
      tsAt h (parentIdx b) ≤ tsAt h b)
    (D2 : ∀ c, 0 < c → c < h.items.length → parentIdx c = i → 0 < i →
      tsAt h (parentIdx i) ≤ tsAt h c) :
    IsHeap (heapFix h i) := by
  have hdl := downLoop_order h i h.items.length hi (le_refl _) D1 D2
  have hge := downLoop_fin_ge h i h.items.length
  unfold heapFix downH
  simp only
  split
  · rename_i hmoved
    have hne : (downLoop h i h.items.length).2 ≠ i := by
      simp only [decide_eq_true_eq] at hmoved
      omega
    unfold IsHeap
    rw [length_downLoop]
    exact hdl.2 hne
  · rename_i hmoved
    have heq : (downLoop h i h.items.length).2 = i := by
      simp only [decide_eq_true_eq] at hmoved
      omega
    obtain ⟨hsame, hchild⟩ := hdl.1 heq
    rw [hsame]
    unfold IsHeap
    rw [length_upH]
    apply upH_order h h.items.length i hi (le_refl _)
    · intro b hb0 hbn hbj
      by_cases hpb : parentIdx b = i
      · rw [hpb]
        exact hchild b hb0 hbn hpb
      · exact D1 b hb0 hbn hbj hpb
    · exact D2


/-- `PushItem` preserves the heap order on well-formed heaps. -/
theorem PushItem_isHeap (h : KeyExpirationMinHeap) (item : KeyExpiration)
    (hwf : WFHeap h) (hheap : IsHeap h) : IsHeap (h.PushItem item) := by
  unfold KeyExpirationMinHeap.PushItem
  cases hlk : mapLookup h.index item.key with
  | none => exact heapPush_isHeap h item hheap
  | some idx =>
    obtain ⟨hidx, _⟩ := (hwf.1 item.key idx).1 hlk
    have hls := length_setStamp h idx item.expire_timestamp
    apply heapFix_order (setStamp h idx item.expire_timestamp) idx
      (by omega)
    · intro b hb0 hbn hbj hpb
      rw [hls] at hbn
      rw [tsAt_setStamp, tsAt_setStamp, if_neg (by tauto), if_neg (by tauto)]
      exact hheap b hb0 hbn
    · intro c hc0 hcn hpc h0i
      rw [hls] at hcn
      have hci : idx < c := by
        have := parentIdx_lt c hc0
        omega
      have hpi : parentIdx idx < idx := parentIdx_lt idx h0i
      rw [tsAt_setStamp, tsAt_setStamp, if_neg (by omega), if_neg (by omega)]
      have h1 := hheap idx h0i hidx
      have h2 := hheap c hc0 hcn
      rw [hpc] at h2
      omega

theorem PopMin_empty (h : KeyExpirationMinHeap)
    (hlen : h.items.length = 0) : h.PopMin = (none, h) := by
  unfold KeyExpirationMinHeap.PopMin
  rw [if_pos hlen]

/-- `PopMin` preserves the heap order. -/
theorem PopMin_isHeap (h : KeyExpirationMinHeap) (hheap : IsHeap h) :
    IsHeap h.PopMin.2 := by
  by_cases hlen : h.items.length = 0
  · rw [PopMin_empty h hlen]
    exact hheap
  · unfold KeyExpirationMinHeap.PopMin heapPop
    rw [if_neg hlen]
    simp only
    set n := h.items.length - 1 with hn
    have h0 : 0 < h.items.length := by omega
    have hnl : n < h.items.length := by omega
    have hlsw := length_swapH h 0 n
    have hldn := length_downLoop (swapH h 0 n) 0 n
    apply isHeapUpTo_popM
    rw [hldn, hlsw, ← hn]
    -- the prefix of length n of the sifted state is heap-ordered
    have hD1 : ∀ b, 0 < b → b < n → b ≠ 0 → parentIdx b ≠ 0 →
        tsAt (swapH h 0 n) (parentIdx b) ≤ tsAt (swapH h 0 n) b := by
      intro b hb0 hbn _ hpb
      have hpblt : parentIdx b < b := parentIdx_lt b hb0
      rw [tsAt_swapH h 0 n h0 hnl b, tsAt_swapH h 0 n h0 hnl (parentIdx b),
        if_neg (by omega), if_neg (by omega), if_neg (by omega),
        if_neg (by omega)]
      exact hheap b hb0 (by omega)
    rcases Nat.eq_zero_or_pos n with hz | hpos
    · intro b hb0 hbn
      omega
    · have hdl := downLoop_order (swapH h 0 n) 0 n hpos (by omega) hD1
        (by intro c _ _ _ hc; omega)
      have hge := downLoop_fin_ge (swapH h 0 n) 0 n
      by_cases hfin : (downLoop (swapH h 0 n) 0 n).2 = 0
      · obtain ⟨hsame, hchild⟩ := hdl.1 hfin
        rw [hsame]
        intro b hb0 hbn
        by_cases hpb : parentIdx b = 0
        · rw [hpb]
          exact hchild b hb0 hbn hpb
        · exact hD1 b hb0 hbn (by omega) hpb
      · exact hdl.2 hfin

/-- `Remove` preserves the heap order on well-formed heaps. -/
theorem Remove_isHeap (h : KeyExpirationMinHeap) (key : ByteStr)
    (hwf : WFHeap h) (hheap : IsHeap h) : IsHeap (h.Remove key).2 := by
  unfold KeyExpirationMinHeap.Remove
  cases hlk : mapLookup h.index key with
  | none => exact hheap
  | some idx =>
    obtain ⟨hidx, _⟩ := (hwf.1 key idx).1 hlk
    simp only
    unfold heapRemove
    by_cases hin : idx = h.items.length - 1
    · rw [if_neg (by omega)]
      apply isHeapUpTo_popM
      intro b hb0 hbn
      exact hheap b hb0 (by omega)
    · rw [if_pos hin]
      set n := h.items.length - 1 with hn
      have hidn : idx < n := by omega
      have hnl : n < h.items.length := by omega
      have hlsw := length_swapH h idx n
      have hldn := length_downLoop (swapH h idx n) idx n
      have hD1 : ∀ b, 0 < b → b < n → b ≠ idx → parentIdx b ≠ idx →
          tsAt (swapH h idx n) (parentIdx b) ≤ tsAt (swapH h idx n) b := by
        intro b hb0 hbn hbj hpb
        have hpblt : parentIdx b < b := parentIdx_lt b hb0
        rw [tsAt_swapH h idx n hidx hnl b,
          tsAt_swapH h idx n hidx hnl (parentIdx b),
          if_neg (by omega), if_neg (by omega), if_neg (by omega),
          if_neg (by omega)]
        exact hheap b hb0 (by omega)
      have hD2 : ∀ c, 0 < c → c < n → parentIdx c = idx → 0 < idx →
          tsAt (swapH h idx n) (parentIdx idx) ≤ tsAt (swapH h idx n) c := by
        intro c hc0 hcn hpc h0i
        have hci : idx < c := by
          have := parentIdx_lt c hc0
          omega
        have hpi : parentIdx idx < idx := parentIdx_lt idx h0i
        rw [tsAt_swapH h idx n hidx hnl c,
          tsAt_swapH h idx n hidx hnl (parentIdx idx),
          if_neg (by omega), if_neg (by omega), if_neg (by omega),
          if_neg (by omega)]
        have h1 := hheap idx h0i hidx
        have h2 := hheap c hc0 (by omega)
        rw [hpc] at h2
        omega
      have hdl := downLoop_order (swapH h idx n) idx n hidn (by omega)
        hD1 hD2
      have hge := downLoop_fin_ge (swapH h idx n) idx n
      unfold downH
      simp only
      split
      · rename_i hmoved
        simp only [decide_eq_true_eq] at hmoved
        apply isHeapUpTo_popM
        rw [hldn, hlsw, ← hn]
        exact hdl.2 (by omega)
      · rename_i hmoved
        simp only [decide_eq_true_eq] at hmoved
        have heq : (downLoop (swapH h idx n) idx n).2 = idx := by omega
        obtain ⟨hsame, hchild⟩ := hdl.1 heq
        rw [hsame]
        apply isHeapUpTo_popM
        rw [length_upH, hlsw, ← hn]
        apply upH_order (swapH h idx n) n idx hidn (by omega)
        · intro b hb0 hbn hbj
          by_cases hpb : parentIdx b = idx
          · rw [hpb]
            exact hchild b hb0 hbn hpb
          · exact hD1 b hb0 hbn hbj hpb
        · exact hD2

/-- In a heap-ordered state the root timestamp is a lower bound. -/
theorem isHeap_le_root (h : KeyExpirationMinHeap) (hheap : IsHeap h) :
    ∀ i, i < h.items.length → tsAt h 0 ≤ tsAt h i := by
  intro i
  induction i using Nat.strong_induction_on with
  | _ i ih =>
    intro hi
    rcases Nat.eq_zero_or_pos i with hz | hpos
    · subst hz
      exact le_refl _
    · have hpi : parentIdx i < i := parentIdx_lt i hpos
      have h1 := ih (parentIdx i) hpi (by omega)
      have h2 := hheap i hpos hi
      omega


/-! ### Reachable heap states and the claims about them -/

/-- Heap states reachable from the empty heap by any sequence of the
public operations `PushItem`, `PopMin`, `Remove` and `Peek` (`Peek`
does not mutate the state). -/
inductive ReachableHeap : KeyExpirationMinHeap → Prop
  | empty : ReachableHeap NewKeyExpirationMinHeap
  | pushItem (h : KeyExpirationMinHeap) (item : KeyExpiration) :
      ReachableHeap h → ReachableHeap (h.PushItem item)
  | popMin (h : KeyExpirationMinHeap) :
      ReachableHeap h → ReachableHeap h.PopMin.2
  | remove (h : KeyExpirationMinHeap) (key : ByteStr) :
      ReachableHeap h → ReachableHeap (h.Remove key).2
  | peek (h : KeyExpirationMinHeap) :
      ReachableHeap h → ReachableHeap h

theorem WF_empty : WFHeap NewKeyExpirationMinHeap := by
  constructor
  · intro k i
    constructor
    · intro hc
      exact absurd hc (by simp [NewKeyExpirationMinHeap, mapLookup])
    · rintro ⟨hi, _⟩
      simp [NewKeyExpirationMinHeap] at hi
  · simp [NewKeyExpirationMinHeap, NodupKeys]

/-- Every reachable heap state is well-formed and heap-ordered. -/
theorem reachable_inv (h : KeyExpirationMinHeap) (hr : ReachableHeap h) :
    WFHeap h ∧ IsHeap h := by
  induction hr with
  | empty =>
    refine ⟨WF_empty, ?_⟩
    intro b hb0 hbn
    simp [NewKeyExpirationMinHeap] at hbn
  | pushItem h item _ ih =>
    exact ⟨(PushItem_spec h item ih.1).1, PushItem_isHeap h item ih.1 ih.2⟩
  | popMin h _ ih =>
    by_cases hlen : h.items.length = 0
    · rw [PopMin_empty h hlen]
      exact ih
    · exact ⟨(PopMin_spec h ih.1 hlen).2.1, PopMin_isHeap h ih.2⟩
  | remove h key _ ih =>
    cases hlk : mapLookup h.index key with
    | none =>
      rw [Remove_absent h key hlk]
      exact ih
    | some idx =>
      exact ⟨(Remove_spec h key idx ih.1 hlk).2.1, Remove_isHeap h key ih.1 ih.2⟩
  | peek h _ ih => exact ih

/-- Well-formedness forces the index map to have exactly one entry per
stored item. -/
theorem WF_card (h : KeyExpirationMinHeap) (hwf : WFHeap h) :
    h.index.length = h.items.length := by
  have hnd1 : (h.index.map Prod.fst).Nodup := hwf.2
  have hnd2 : (h.items.map (fun e => e.key)).Nodup := by
    rw [List.nodup_iff_injective_get]
    intro i j hij
    have hi : (i : Nat) < h.items.length := by simpa using i.2
    have hj : (j : Nat) < h.items.length := by simpa using j.2
    have e1 : (h.items.map (fun e => e.key)).get i = (getE h i).key := by
      show (h.items.map (fun e => e.key))[(i : Nat)] = _
      rw [List.getElem_map]
      unfold getE
      rw [List.getD_eq_getElem _ _ hi]
    have e2 : (h.items.map (fun e => e.key)).get j = (getE h j).key := by
      show (h.items.map (fun e => e.key))[(j : Nat)] = _
      rw [List.getElem_map]
      unfold getE
      rw [List.getD_eq_getElem _ _ hj]
    rw [e1, e2] at hij
    exact Fin.ext (hwf.key_inj hi hj hij)
  have hmem : ∀ a, a ∈ h.index.map Prod.fst ↔
      a ∈ h.items.map (fun e => e.key) := by
    intro a
    rw [← mapLookup_isSome_iff_mem]
    constructor
    · intro hs
      obtain ⟨i, hi⟩ := Option.isSome_iff_exists.mp hs
      obtain ⟨hlt, hkey⟩ := (hwf.1 a i).1 hi
      rw [List.mem_map]
      refine ⟨getE h i, ?_, hkey⟩
      unfold getE
      rw [List.getD_eq_getElem _ _ hlt]
      exact List.getElem_mem hlt
    · intro hm
      rw [List.mem_map] at hm
      obtain ⟨e, he, hkey⟩ := hm
      obtain ⟨i, hlt, hi⟩ := List.mem_iff_getElem.mp he
      have hval : mapLookup h.index a = some i := by
        apply (hwf.1 a i).2
        refine ⟨hlt, ?_⟩
        unfold getE
        rw [List.getD_eq_getElem _ _ hlt, hi, hkey]
      simp [hval]
  calc h.index.length = (h.index.map Prod.fst).length := by simp
    _ = (h.items.map (fun e => e.key)).length :=
        ((List.perm_ext_iff_of_nodup hnd1 hnd2).mpr hmem).length_eq
    _ = h.items.length := by simp

/-- C4: For every `KeyExpirationMinHeap` state reachable from the empty
heap by any sequence of the public operations `PushItem`, `PopMin`,
`Remove` and `Peek`, every slot `i` of the items slice satisfies
`index[items[i].key] == i`, no stale index entries remain (every index
entry points at an in-range slot holding exactly that key), and the
cardinality of the index map equals the length of the items slice. -/
theorem C4_heap_index_consistency (h : KeyExpirationMinHeap)
    (hr : ReachableHeap h) :
    (∀ i, i < h.items.length →
      mapLookup h.index (getE h i).key = some i) ∧
    (∀ k i, mapLookup h.index k = some i →
      i < h.items.length ∧ (getE h i).key = k) ∧
    h.index.length = h.items.length := by
  have hwf := (reachable_inv h hr).1
  exact ⟨fun i hi => hwf.lookup_self i hi,
    fun k i hk => (hwf.1 k i).1 hk,
    WF_card h hwf⟩

/-- A sample reachable heap used by the witnesses: push two keys, pop
the minimum. -/
def sampleHeap : KeyExpirationMinHeap :=
  ((NewKeyExpirationMinHeap.PushItem ⟨strBytes "a", 50⟩).PushItem
    ⟨strBytes "b", 20⟩).PopMin.2

theorem C4_heap_index_consistency_witness :
    (∀ i, i < sampleHeap.items.length →
      mapLookup sampleHeap.index (getE sampleHeap i).key = some i) ∧
    (∀ k i, mapLookup sampleHeap.index k = some i →
      i < sampleHeap.items.length ∧ (getE sampleHeap i).key = k) ∧
    sampleHeap.index.length = sampleHeap.items.length :=
  C4_heap_index_consistency sampleHeap
    (ReachableHeap.popMin _ (ReachableHeap.pushItem _ _
      (ReachableHeap.pushItem _ _ ReachableHeap.empty)))

/-- C5: In every reachable `KeyExpirationMinHeap` state, `Peek`
returns `(zero, false)` (modelled `none`) exactly when the heap is
empty, and on a non-empty heap it returns an entry whose
`expire_timestamp` is a lower bound for every stored entry. -/
theorem C5_peek_returns_minimum (h : KeyExpirationMinHeap)
    (hr : ReachableHeap h) :
    (h.Peek = none ↔ h.items = []) ∧
    (∀ m, h.Peek = some m → ∀ e, e ∈ h.items →
      m.expire_timestamp ≤ e.expire_timestamp) := by
  have hheap := (reachable_inv h hr).2
  constructor
  · unfold KeyExpirationMinHeap.Peek
    constructor
    · intro hp
      by_cases hlen : h.items.length = 0
      · exact List.length_eq_zero.mp hlen
      · rw [if_neg hlen] at hp
        exact absurd hp (by simp)
    · intro he
      rw [if_pos (by rw [he]; rfl)]
  · intro m hm e he
    unfold KeyExpirationMinHeap.Peek at hm
    by_cases hlen : h.items.length = 0
    · rw [if_pos hlen] at hm
      exact absurd hm (by simp)
    · rw [if_neg hlen] at hm
      have hm' : m = getE h 0 := (Option.some_inj.mp hm).symm
      obtain ⟨i, hlt, hi⟩ := List.mem_iff_getElem.mp he
      have hroot := isHeap_le_root h hheap i hlt
      unfold tsAt at hroot
      have hgi : getE h i = e := by
        unfold getE
        rw [List.getD_eq_getElem _ _ hlt, hi]
      rw [hm', ← hgi]
      exact hroot

theorem C5_peek_returns_minimum_witness :
    (sampleHeap.Peek = none ↔ sampleHeap.items = []) ∧
    (∀ m, sampleHeap.Peek = some m → ∀ e, e ∈ sampleHeap.items →
      m.expire_timestamp ≤ e.expire_timestamp) :=
  C5_peek_returns_minimum sampleHeap
    (ReachableHeap.popMin _ (ReachableHeap.pushItem _ _
      (ReachableHeap.pushItem _ _ ReachableHeap.empty)))


/-! ### The keyspace (src/server/keydataSpace.go) and server state -/

/-- `NO_EXP_TS` (src/server/keyExpiration.go): sentinel deadline
meaning "no expiration". -/
def NO_EXP_TS : Int := -1

/-- `math.MaxInt64`, the in-memory "never expires" deadline used by
`SET` without TTL. -/
def INT64_MAX : Int := 9223372036854775807

/-- Go int64 two's-complement wrapping of an unbounded integer
result. -/
def wrap64 (x : Int) : Int :=
  (x + 9223372036854775808) % 18446744073709551616 - 9223372036854775808

/-- `KeyDataSpace` (src/server/keydataSpace.go): a map from keys to
values. -/
structure KeyDataSpace where
  data : List (ByteStr × ByteStr)
deriving DecidableEq

/-- `NewKeyDataSpace`. -/
def NewKeyDataSpace : KeyDataSpace := ⟨[]⟩

/-- `Add` (keydataSpace.go): insert or update. -/
def KeyDataSpace.Add (s : KeyDataSpace) (key value : ByteStr) :
    KeyDataSpace := ⟨mapInsert s.data key value⟩

/-- `Remove` (keydataSpace.go): delete. -/
def KeyDataSpace.Remove (s : KeyDataSpace) (key : ByteStr) : KeyDataSpace :=
  ⟨mapErase s.data key⟩

/-- `Get` (keydataSpace.go): `none` models `(_, false)`. -/
def KeyDataSpace.Get (s : KeyDataSpace) (key : ByteStr) : Option ByteStr :=
  mapLookup s.data key

/-- `Exists` (keydataSpace.go). -/
def KeyDataSpace.Exists (s : KeyDataSpace) (key : ByteStr) : Bool :=
  (mapLookup s.data key).isSome

/-- `Length` (keydataSpace.go). -/
def KeyDataSpace.Length (s : KeyDataSpace) : Nat := s.data.length

/-- `Keys` (keydataSpace.go). -/
def KeyDataSpace.Keys (s : KeyDataSpace) : List ByteStr :=
  s.data.map Prod.fst

/-- `DeepCopy` (keydataSpace.go): the copy of a pure value is itself. -/
def KeyDataSpace.DeepCopy (s : KeyDataSpace) : KeyDataSpace := s

/-- The two global stores of the server (`keyDataSpace` and
`keyExpirations`). -/
structure ServerState where
  keyDataSpace : KeyDataSpace
  keyExpirations : KeyExpirationMinHeap
deriving DecidableEq

/-- Both stores empty, as after `initDataStructures` with no RDB file. -/
def emptyServerState : ServerState :=
  ⟨NewKeyDataSpace, NewKeyExpirationMinHeap⟩

/-! ### Engine-level command actions (src/unnamed/part_002)

These are the post-parse tails of the `SET`/`DEL`/`SETEXP` handlers:
the key, value and TTL arguments are already tokenized and decoded,
and `time.Now().UnixMilli()` is passed explicitly as `now_ms`. -/

/-- The deadline computed by `SET` (part_002 lines 94-99):
`INT64_MAX` when the TTL is omitted (modelled `none`, the Go default
`-1`) or equal to `-1`, otherwise `now + ttl*1000` in wrapping int64
arithmetic. -/
def setDeadline (expiration_sec : Option Int) (now_ms : Int) : Int :=
  if expiration_sec.getD (-1) = -1 then INT64_MAX
  else wrap64 (now_ms + expiration_sec.getD (-1) * 1000)

/-- Tail of `SET` (part_002 lines 94-105): store the value and push
the expiration. -/
def applySet (st : ServerState) (key data : ByteStr)
    (expiration_sec : Option Int) (now_ms : Int) : ServerState :=
  { keyDataSpace := st.keyDataSpace.Add key data
    keyExpirations :=
      st.keyExpirations.PushItem ⟨key, setDeadline expiration_sec now_ms⟩ }

/-- Tail of `DEL` (part_002 lines 108-119): remove from both stores. -/
def applyDel (st : ServerState) (key : ByteStr) : ServerState :=
  { keyDataSpace := st.keyDataSpace.Remove key
    keyExpirations := (st.keyExpirations.Remove key).2 }

/-- Tail of `SETEXP` (part_002 lines 121-148): `UpdateExpiration` with
`now + ttl*1000`; the Bool reports whether the key existed. -/
def applySetexp (st : ServerState) (key : ByteStr) (expiration_sec : Int)
    (now_ms : Int) : ServerState × Bool :=
  ({ st with keyExpirations :=
      (st.keyExpirations.UpdateExpiration key
        (wrap64 (now_ms + expiration_sec * 1000))).1 },
   (st.keyExpirations.UpdateExpiration key
     (wrap64 (now_ms + expiration_sec * 1000))).2)

/-! ### The reaper (src/server/routines.go, handleKeysExpirationGoRoutine) -/

/-- What one reaper iteration did: slept (empty heap or unexpired
root), or evicted the peeked entry. -/
inductive ReaperAction
  | slept
  | evicted (e : KeyExpiration)
deriving DecidableEq

/-- One iteration of `handleKeysExpirationGoRoutine` (routines.go lines
81-100) at current time `now_ms`: peek; if empty sleep; if
`now >= deadline` remove the key from the keyspace and pop the heap;
otherwise sleep. -/
def reaperStep (st : ServerState) (now_ms : Int) :
    ServerState × ReaperAction :=
  match st.keyExpirations.Peek with
  | none => (st, .slept)
  | some keyExp =>
    if now_ms ≥ keyExp.expire_timestamp then
      ({ keyDataSpace := st.keyDataSpace.Remove keyExp.key
         keyExpirations := st.keyExpirations.PopMin.2 }, .evicted keyExp)
    else (st, .slept)


/-! ### RDB snapshot serialization (src/server/server_main.go)

The file is a byte stream; `binary.Write`/`binary.Read` with the
host's native byte order are modelled little-endian: `uint32` fields
are four bytes, `int64` fields eight bytes in two's complement. -/

/-- Four little-endian bytes of `uint32(n)` (truncating modulo 2^32 as
Go's conversion does). -/
def encodeU32 (n : Nat) : List Nat :=
  [n % 256, n / 256 % 256, n / 65536 % 256, n / 16777216 % 256]

/-- Decode four little-endian bytes into a `uint32` value. -/
def decodeU32 : List Nat → Nat
  | [b0, b1, b2, b3] => b0 + 256 * b1 + 65536 * b2 + 16777216 * b3
  | _ => 0

/-- Eight little-endian bytes of a 64-bit value. -/
def encodeU64 (n : Nat) : List Nat :=
  [n % 256, n / 256 % 256, n / 65536 % 256, n / 16777216 % 256,
   n / 4294967296 % 256, n / 1099511627776 % 256,
   n / 281474976710656 % 256, n / 72057594037927936 % 256]

/-- Decode eight little-endian bytes into a 64-bit value. -/
def decodeU64 : List Nat → Nat
  | [b0, b1, b2, b3, b4, b5, b6, b7] =>
      b0 + 256 * b1 + 65536 * b2 + 16777216 * b3 + 4294967296 * b4 +
      1099511627776 * b5 + 281474976710656 * b6 + 72057594037927936 * b7
  | _ => 0

/-- `int64` serialized as its two's-complement bit pattern. -/
def encodeI64 (x : Int) : List Nat :=
  encodeU64 (x % 18446744073709551616).toNat

/-- Decode eight bytes as a two's-complement `int64`. -/
def decodeI64 (b : List Nat) : Int :=
  let n := decodeU64 b
  if n < 9223372036854775808 then (n : Int)
  else (n : Int) - 18446744073709551616

theorem length_encodeU32 (n : Nat) : (encodeU32 n).length = 4 := rfl

theorem length_encodeI64 (x : Int) : (encodeI64 x).length = 8 := rfl

theorem decodeU32_encodeU32 (n : Nat) (h : n < 4294967296) :
    decodeU32 (encodeU32 n) = n := by
  simp only [encodeU32, decodeU32]
  omega

theorem decodeI64_encodeI64 (x : Int)
    (h1 : -9223372036854775808 ≤ x) (h2 : x < 9223372036854775808) :
    decodeI64 (encodeI64 x) = x := by
  have hmod : (0 : Int) ≤ x % 18446744073709551616 ∧
      x % 18446744073709551616 < 18446744073709551616 := by
    constructor
    · exact Int.emod_nonneg x (by norm_num)
    · exact Int.emod_lt_of_pos x (by norm_num)
  simp only [encodeI64, decodeI64, encodeU64, decodeU64]
  omega

/-- `writeRdbEntry` (server_main.go lines 188-223):
`key_len(uint32) key data_len(uint32) data exp_ts(int64)`. -/
def writeRdbEntry (key data : ByteStr) (exp_ts_ms : Int) : List Nat :=
  encodeU32 key.length ++ key ++ encodeU32 data.length ++ data ++
    encodeI64 exp_ts_ms

/-- `saveRDBFile` (server_main.go lines 225-272), as the byte stream it
writes.  `keyExpirations` is the package-level global heap: the body
looks deadlines up with `keyExpirations.FindExpiration(key)`, not in
the `expSnapshot` argument, which is accordingly unused here exactly
as in the source. -/
def saveRDBFile (dataSnapshot : KeyDataSpace)
    (expSnapshot : KeyExpirationMinHeap)
    (keyExpirations : KeyExpirationMinHeap) : List Nat :=
  (dataSnapshot.data.map (fun p =>
    writeRdbEntry p.1 p.2
      ((keyExpirations.FindExpiration p.1).getD NO_EXP_TS))).flatten

/-- Outcome of one `binary.Read`-style read of `n` bytes: reading from
an exhausted stream is a clean `io.EOF`; a partial read is
`io.ErrUnexpectedEOF`. -/
inductive ReadErr
  | eofClean
  | unexpectedEOF
deriving DecidableEq

def readBytes (n : Nat) (s : List Nat) :
    Except ReadErr (List Nat × List Nat) :=
  if n ≤ s.length then .ok (s.take n, s.drop n)
  else if s.length = 0 then .error .eofClean
  else .error .unexpectedEOF

/-- `readRdbEntry` (server_main.go lines 146-186): read
`key_len key data_len data exp_ts` in order, propagating the first
read error. -/
def readRdbEntry (s : List Nat) :
    Except ReadErr ((ByteStr × ByteStr × Int) × List Nat) :=
  match readBytes 4 s with
  | .error e => .error e
  | .ok (lenb, s1) =>
    match readBytes (decodeU32 lenb) s1 with
    | .error e => .error e
    | .ok (key, s2) =>
      match readBytes 4 s2 with
      | .error e => .error e
      | .ok (dlenb, s3) =>
        match readBytes (decodeU32 dlenb) s3 with
        | .error e => .error e
        | .ok (data, s4) =>
          match readBytes 8 s4 with
          | .error e => .error e
          | .ok (expb, s5) => .ok ((key, data, decodeI64 expb), s5)

theorem readBytes_ok (n : Nat) (s b r : List Nat)
    (h : readBytes n s = .ok (b, r)) :
    b = s.take n ∧ r = s.drop n ∧ n ≤ s.length := by
  unfold readBytes at h
  split at h
  · rename_i hle
    refine ⟨?_, ?_, hle⟩ <;> cases h <;> rfl
  · split at h <;> cases h

theorem readRdbEntry_consumes (s : List Nat)
    (e : ByteStr × ByteStr × Int) (rest : List Nat)
    (h : readRdbEntry s = .ok (e, rest)) : rest.length < s.length := by
  unfold readRdbEntry at h
  split at h
  · cases h
  · rename_i b1 r1 h1
    split at h
    · cases h
    · rename_i b2 r2 h2
      split at h
      · cases h
      · rename_i b3 r3 h3
        split at h
        · cases h
        · rename_i b4 r4 h4
          split at h
          · cases h
          · rename_i b5 r5 h5
            cases h
            obtain ⟨_, hr1, hl1⟩ := readBytes_ok 4 s b1 r1 h1
            obtain ⟨_, hr2, _⟩ := readBytes_ok _ r1 b2 r2 h2
            obtain ⟨_, hr3, _⟩ := readBytes_ok 4 r2 b3 r3 h3
            obtain ⟨_, hr4, _⟩ := readBytes_ok _ r3 b4 r4 h4
            obtain ⟨_, hr5, _⟩ := readBytes_ok 8 r4 b5 rest h5
            subst hr1 hr2 hr3 hr4 hr5
            simp only [List.length_drop]
            omega

/-- The load loop of `tryLoadRdbFile` (server_main.go lines 311-330):
read entries until a clean EOF; insert each into the keyspace and,
when `exp_ts != NO_EXP_TS`, push into the expiration heap. -/
def loadRdbLoop (s : List Nat) (st : ServerState) :
    Except ReadErr ServerState :=
  match hre : readRdbEntry s with
  | .error .eofClean => .ok st
  | .error .unexpectedEOF => .error .unexpectedEOF
  | .ok (entry, rest) =>
      loadRdbLoop rest
        { keyDataSpace := st.keyDataSpace.Add entry.1 entry.2.1
          keyExpirations :=
            if entry.2.2 ≠ NO_EXP_TS then
              st.keyExpirations.PushItem ⟨entry.1, entry.2.2⟩
            else st.keyExpirations }
termination_by s.length
decreasing_by
  exact readRdbEntry_consumes s entry rest hre

/-- `tryLoadRdbFile` (server_main.go lines 281-333), restricted to the
contents of an existing regular file: an empty file loads nothing;
otherwise run the entry loop.  (The missing-file and non-regular-file
branches are file-system behavior outside the byte-level model.) -/
def tryLoadRdbFile (contents : List Nat) (st : ServerState) :
    Except ReadErr ServerState :=
  if contents.length = 0 then .ok st
  else loadRdbLoop contents st


theorem readBytes_exact (b rest : List Nat) (n : Nat) (h : b.length = n) :
    readBytes n (b ++ rest) = .ok (b, rest) := by
  unfold readBytes
  rw [if_pos (by simp [← h])]
  rw [List.take_left' h, List.drop_left' h]

/-- A serialized entry parses back exactly, leaving the remaining
stream untouched, provided the key and value fit the `uint32` length
fields and the deadline fits in an `int64`. -/
theorem readRdbEntry_writeRdbEntry (key data : ByteStr) (exp : Int)
    (rest : List Nat)
    (hk : key.length < 4294967296) (hd : data.length < 4294967296)
    (he1 : -9223372036854775808 ≤ exp) (he2 : exp < 9223372036854775808) :
    readRdbEntry (writeRdbEntry key data exp ++ rest) =
      .ok ((key, data, exp), rest) := by
  unfold writeRdbEntry readRdbEntry
  rw [List.append_assoc, List.append_assoc, List.append_assoc,
    List.append_assoc]
  rw [readBytes_exact _ _ 4 (length_encodeU32 _)]
  simp only
  rw [decodeU32_encodeU32 _ hk]
  rw [readBytes_exact _ _ key.length rfl]
  simp only
  rw [readBytes_exact _ _ 4 (length_encodeU32 _)]
  simp only
  rw [decodeU32_encodeU32 _ hd]
  rw [readBytes_exact _ _ data.length rfl]
  simp only
  rw [readBytes_exact _ _ 8 (length_encodeI64 _)]
  simp only
  rw [decodeI64_encodeI64 _ he1 he2]

theorem loadRdbLoop_nil (st : ServerState) :
    loadRdbLoop [] st = .ok st := by
  rw [loadRdbLoop]
  rfl

/-- Loading a concatenation of well-formed serialized entries succeeds
and folds the entries into the state in order. -/
theorem loadRdbLoop_flatten (l : List (ByteStr × ByteStr × Int))
    (st : ServerState)
    (hb : ∀ e ∈ l, e.1.length < 4294967296 ∧ e.2.1.length < 4294967296 ∧
      -9223372036854775808 ≤ e.2.2 ∧ e.2.2 < 9223372036854775808) :
    loadRdbLoop ((l.map (fun e => writeRdbEntry e.1 e.2.1 e.2.2)).flatten) st
      = .ok (l.foldl (fun acc e =>
          { keyDataSpace := acc.keyDataSpace.Add e.1 e.2.1
            keyExpirations :=
              if e.2.2 ≠ NO_EXP_TS then
                acc.keyExpirations.PushItem ⟨e.1, e.2.2⟩
              else acc.keyExpirations }) st) := by
  induction l generalizing st with
  | nil => simp [loadRdbLoop_nil]
  | cons e l ih =>
    obtain ⟨hk, hd, he1, he2⟩ := hb e (List.mem_cons_self e l)
    rw [List.map_cons, List.flatten_cons, loadRdbLoop,
      readRdbEntry_writeRdbEntry e.1 e.2.1 e.2.2 _ hk hd he1 he2]
    · simp only [List.foldl_cons]
      exact ih _ (fun x hx => hb x (List.mem_cons_of_mem e hx))

/-! ### Auxiliary facts used by the persistence round trip -/

theorem wrap64_bounds (x : Int) :
    -9223372036854775808 ≤ wrap64 x ∧ wrap64 x < 9223372036854775808 := by
  unfold wrap64
  have h1 : (0 : Int) ≤ (x + 9223372036854775808) % 18446744073709551616 :=
    Int.emod_nonneg _ (by norm_num)
  have h2 : (x + 9223372036854775808) % 18446744073709551616 <
      18446744073709551616 := Int.emod_lt_of_pos _ (by norm_num)
  omega

theorem mapInsert_absent {α : Type} (m : List (ByteStr × α)) (k : ByteStr)
    (v : α) (h : mapLookup m k = none) : mapInsert m k v = m ++ [(k, v)] := by
  induction m with
  | nil => rfl
  | cons p m ih =>
    unfold mapLookup at h
    by_cases hp : p.1 = k
    · rw [if_pos hp] at h
      cases h
    · rw [if_neg hp] at h
      unfold mapInsert
      rw [if_neg hp, ih h]
      rfl

theorem mapLookup_append {α : Type} (m1 m2 : List (ByteStr × α))
    (k : ByteStr) :
    mapLookup (m1 ++ m2) k =
      match mapLookup m1 k with
      | some v => some v
      | none => mapLookup m2 k := by
  induction m1 with
  | nil => simp [mapLookup]
  | cons p m1 ih =>
    by_cases hp : p.1 = k
    · simp [mapLookup, hp]
    · simp only [List.cons_append]
      unfold mapLookup
      rw [if_neg hp, if_neg hp, ih]
      cases mapLookup m1 k with
      | some v => rfl
      | none => cases m2 with
        | nil => rfl
        | cons q m => rfl

theorem mem_mapInsert {α : Type} (m : List (ByteStr × α)) (k : ByteStr)
    (v : α) (p : ByteStr × α) (h : p ∈ mapInsert m k v) :
    p ∈ m ∨ p = (k, v) := by
  induction m with
  | nil =>
    simp [mapInsert] at h
    exact Or.inr h
  | cons q m ih =>
    unfold mapInsert at h
    by_cases hq : q.1 = k
    · rw [if_pos hq] at h
      rcases List.mem_cons.mp h with h | h
      · exact Or.inr h
      · exact Or.inl (List.mem_cons_of_mem q h)
    · rw [if_neg hq] at h
      rcases List.mem_cons.mp h with h | h
      · exact Or.inl (List.mem_cons.mpr (Or.inl h))
      · rcases ih h with h | h
        · exact Or.inl (List.mem_cons_of_mem q h)
        · exact Or.inr h

theorem mem_mapErase {α : Type} (m : List (ByteStr × α)) (k : ByteStr)
    (p : ByteStr × α) (h : p ∈ mapErase m k) : p ∈ m := by
  induction m with
  | nil => simpa [mapErase] using h
  | cons q m ih =>
    unfold mapErase at h
    by_cases hq : q.1 = k
    · rw [if_pos hq] at h
      exact List.mem_cons_of_mem q (ih h)
    · rw [if_neg hq] at h
      rcases List.mem_cons.mp h with h | h
      · exact List.mem_cons.mpr (Or.inl h)
      · exact List.mem_cons_of_mem q (ih h)

theorem Get_Add (s : KeyDataSpace) (key value : ByteStr) (k : ByteStr) :
    (s.Add key value).Get k = if k = key then some value else s.Get k := by
  unfold KeyDataSpace.Add KeyDataSpace.Get
  exact mapLookup_insert s.data key value k

theorem Get_Remove (s : KeyDataSpace) (key : ByteStr) (k : ByteStr) :
    (s.Remove key).Get k = if k = key then none else s.Get k := by
  unfold KeyDataSpace.Remove KeyDataSpace.Get
  exact mapLookup_erase s.data key k

theorem FindExp_isSome_iff (h : KeyExpirationMinHeap) (k : ByteStr) :
    (h.FindExpiration k).isSome = (mapLookup h.index k).isSome := by
  unfold KeyExpirationMinHeap.FindExpiration
  cases mapLookup h.index k <;> rfl

/-- `UpdateExpiration` updates the deadline of a present key and is a
no-op on an absent key. -/
theorem UpdateExpiration_spec (h : KeyExpirationMinHeap) (key : ByteStr)
    (d : Int) (hwf : WFHeap h) :
    WFHeap (h.UpdateExpiration key d).1 ∧
    (∀ k2, (h.UpdateExpiration key d).1.FindExpiration k2 =
      if (mapLookup h.index key).isSome ∧ k2 = key then some d
      else h.FindExpiration k2) := by
  unfold KeyExpirationMinHeap.UpdateExpiration
  by_cases hk : (mapLookup h.index key).isSome
  · rw [if_pos hk]
    have hp := PushItem_spec h ⟨key, d⟩ hwf
    refine ⟨hp.1, ?_⟩
    intro k2
    rw [hp.2.1 k2]
    by_cases h2 : k2 = key
    · simp [h2, hk]
    · simp [h2, hk]
  · rw [if_neg hk]
    refine ⟨hwf, ?_⟩
    intro k2
    rw [if_neg (by tauto)]


/-- One entry of the load loop folded into the state. -/
def loadStep (acc : ServerState) (e : ByteStr × ByteStr × Int) :
    ServerState :=
  { keyDataSpace := acc.keyDataSpace.Add e.1 e.2.1
    keyExpirations :=
      if e.2.2 ≠ NO_EXP_TS then acc.keyExpirations.PushItem ⟨e.1, e.2.2⟩
      else acc.keyExpirations }

theorem loadRdbLoop_flatten_fold (l : List (ByteStr × ByteStr × Int))
    (st : ServerState)
    (hb : ∀ e ∈ l, e.1.length < 4294967296 ∧ e.2.1.length < 4294967296 ∧
      -9223372036854775808 ≤ e.2.2 ∧ e.2.2 < 9223372036854775808) :
    loadRdbLoop ((l.map (fun e => writeRdbEntry e.1 e.2.1 e.2.2)).flatten) st
      = .ok (l.foldl loadStep st) :=
  loadRdbLoop_flatten l st hb

theorem loadFold_ks (l : List (ByteStr × ByteStr × Int)) (st0 : ServerState) :
    (l.foldl loadStep st0).keyDataSpace.data =
      l.foldl (fun a e => mapInsert a e.1 e.2.1) st0.keyDataSpace.data := by
  induction l generalizing st0 with
  | nil => rfl
  | cons e l ih =>
    rw [List.foldl_cons, List.foldl_cons, ih]
    rfl

theorem foldl_mapInsert_fresh (m : List (ByteStr × ByteStr × Int))
    (acc : List (ByteStr × ByteStr))
    (hacc : ∀ e ∈ m, mapLookup acc e.1 = none)
    (hnd : (m.map (fun e => e.1)).Nodup) :
    m.foldl (fun a e => mapInsert a e.1 e.2.1) acc =
      acc ++ m.map (fun e => (e.1, e.2.1)) := by
  induction m generalizing acc with
  | nil => simp
  | cons e m ih =>
    rw [List.foldl_cons,
      mapInsert_absent acc e.1 e.2.1 (hacc e (List.mem_cons_self e m))]
    simp only [List.map_cons, List.nodup_cons] at hnd
    rw [ih (acc ++ [(e.1, e.2.1)]) ?_ hnd.2]
    · rw [List.map_cons, List.append_assoc]
      rfl
    · intro x hx
      rw [mapLookup_append]
      rw [hacc x (List.mem_cons_of_mem e hx)]
      have hne : ¬ (e.1 = x.1) := by
        intro hc
        exact hnd.1 (hc ▸ (List.mem_map.mpr ⟨x, hx, rfl⟩))
      simp [mapLookup, hne]

theorem mapLookup_cons {α : Type} (p : ByteStr × α)
    (m : List (ByteStr × α)) (k : ByteStr) :
    mapLookup (p :: m) k = if p.1 = k then some p.2 else mapLookup m k :=
  rfl

/-- `FindExpiration` on the state built by folding load entries over a
base state whose heap does not contain any of the loaded keys. -/
theorem loadFold_FindExp (l : List (ByteStr × ByteStr × Int))
    (st0 : ServerState) (hwf : WFHeap st0.keyExpirations)
    (hfresh : ∀ e ∈ l, st0.keyExpirations.FindExpiration e.1 = none)
    (hnd : (l.map (fun e => e.1)).Nodup) :
    WFHeap (l.foldl loadStep st0).keyExpirations ∧
    (∀ k, (l.foldl loadStep st0).keyExpirations.FindExpiration k =
      match mapLookup (l.map (fun e => (e.1, e.2.2))) k with
      | some t =>
          if t ≠ NO_EXP_TS then some t
          else st0.keyExpirations.FindExpiration k
      | none => st0.keyExpirations.FindExpiration k) := by
  induction l generalizing st0 with
  | nil =>
    refine ⟨hwf, ?_⟩
    intro k
    simp [mapLookup]
  | cons e l ih =>
    simp only [List.map_cons, List.nodup_cons] at hnd
    have hstep : ∀ k, (loadStep st0 e).keyExpirations.FindExpiration k =
        if e.2.2 ≠ NO_EXP_TS ∧ k = e.1 then some e.2.2
        else st0.keyExpirations.FindExpiration k := by
      intro k
      unfold loadStep
      by_cases hts : e.2.2 ≠ NO_EXP_TS
      · simp only [if_pos hts]
        rw [(PushItem_spec st0.keyExpirations ⟨e.1, e.2.2⟩ hwf).2.1 k]
        by_cases hk : k = e.1 <;> simp [hk, hts]
      · simp only [if_neg hts]
        rw [if_neg (by tauto)]
    have hwf1 : WFHeap (loadStep st0 e).keyExpirations := by
      unfold loadStep
      split
      · exact (PushItem_spec st0.keyExpirations ⟨e.1, e.2.2⟩ hwf).1
      · exact hwf
    have hfresh1 : ∀ x ∈ l, (loadStep st0 e).keyExpirations.FindExpiration x.1
        = none := by
      intro x hx
      rw [hstep x.1]
      have hne : ¬ (x.1 = e.1) := by
        intro hc
        exact hnd.1 (hc ▸ (List.mem_map.mpr ⟨x, hx, rfl⟩))
      rw [if_neg (by tauto)]
      exact hfresh x (List.mem_cons_of_mem e hx)
    obtain ⟨hwfl, hchar⟩ := ih (loadStep st0 e) hwf1 hfresh1 hnd.2
    refine ⟨hwfl, ?_⟩
    intro k
    rw [List.foldl_cons, hchar k]
    by_cases hk : k = e.1
    · subst hk
      simp only [List.map_cons, mapLookup_cons]
      rw [if_true]
      have hnone : mapLookup (l.map (fun e => (e.1, e.2.2))) e.1 = none := by
        cases hl : mapLookup (l.map (fun e => (e.1, e.2.2))) e.1 with
        | none => rfl
        | some t =>
          exfalso
          have := mapLookup_isSome_iff_mem (l.map (fun e => (e.1, e.2.2))) e.1
          rw [hl] at this
          have hmem := this.1 (by simp)
          simp only [List.map_map] at hmem
          apply hnd.1
          obtain ⟨x, hx, hxx⟩ := List.mem_map.mp hmem
          exact List.mem_map.mpr ⟨x, hx, hxx⟩
      rw [hnone, hstep e.1]
      by_cases hts : e.2.2 ≠ NO_EXP_TS
      · rw [if_pos ⟨hts, rfl⟩]
        show some e.2.2 =
          if e.2.2 ≠ NO_EXP_TS then some e.2.2
          else st0.keyExpirations.FindExpiration e.1
        rw [if_pos hts]
      · rw [if_neg (by tauto)]
        show st0.keyExpirations.FindExpiration e.1 =
          if e.2.2 ≠ NO_EXP_TS then some e.2.2
          else st0.keyExpirations.FindExpiration e.1
        rw [if_neg hts]
    · simp only [List.map_cons, mapLookup_cons]
      have hne : ¬ ((e.1, e.2.2).1 = k) := fun hc => hk (hc.symm)
      rw [if_neg hne]
      cases hl : mapLookup (l.map (fun e => (e.1, e.2.2))) k with
      | none =>
        rw [hstep k, if_neg (by tauto)]
      | some t =>
        show (if t ≠ NO_EXP_TS then some t
            else (loadStep st0 e).keyExpirations.FindExpiration k) =
          (if t ≠ NO_EXP_TS then some t
            else st0.keyExpirations.FindExpiration k)
        by_cases hts : t ≠ NO_EXP_TS
        · rw [if_pos hts, if_pos hts]
        · rw [if_neg hts, if_neg hts, hstep k, if_neg (by tauto)]


theorem mapLookup_map_keyfn {β : Type} (m : List (ByteStr × ByteStr))
    (g : ByteStr → β) (k : ByteStr) :
    mapLookup (m.map (fun p => (p.1, g p.1))) k =
      (mapLookup m k).map (fun _ => g k) := by
  induction m with
  | nil => rfl
  | cons p m ih =>
    by_cases hp : p.1 = k
    · subst hp
      simp [mapLookup]
    · simp only [List.map_cons]
      unfold mapLookup
      rw [if_neg hp, if_neg hp, ih]

theorem tryLoadRdbFile_eq_loop (contents : List Nat) (st : ServerState) :
    tryLoadRdbFile contents st = loadRdbLoop contents st := by
  unfold tryLoadRdbFile
  split
  · rename_i hz
    rw [List.length_eq_zero.mp hz, loadRdbLoop_nil]
  · rfl

/-- State invariants that command execution maintains: heap
well-formed, keyspace keys unique and sized for the uint32 framing,
deadlines in int64 range, and the two stores covering exactly the
same keys. -/
def GoodState (st : ServerState) : Prop :=
  WFHeap st.keyExpirations ∧
  NodupKeys st.keyDataSpace.data ∧
  (∀ p ∈ st.keyDataSpace.data,
    p.1.length < 4294967296 ∧ p.2.length < 4294967296) ∧
  (∀ k t, st.keyExpirations.FindExpiration k = some t →
    -9223372036854775808 ≤ t ∧ t < 9223372036854775808) ∧
  (∀ k, (st.keyDataSpace.Get k).isSome ↔
    (st.keyExpirations.FindExpiration k).isSome)

/-- The core persistence round trip at the state level: saving a good
state with `saveRDBFile` (as called by the snapshot tick, with both
deep copies taken from the same quiescent state) and loading the bytes
into fresh stores succeeds, reproduces the keyspace exactly, and
reproduces every key's deadline except that a stored deadline equal to
`NO_EXP_TS` is dropped by the load filter. -/
theorem rdb_roundtrip_state (st : ServerState) (hg : GoodState st) :
    ∃ st2 : ServerState,
      tryLoadRdbFile
        (saveRDBFile st.keyDataSpace.DeepCopy st.keyExpirations.DeepCopy
          st.keyExpirations) emptyServerState = .ok st2 ∧
      st2.keyDataSpace = st.keyDataSpace ∧
      (∀ k, st2.keyExpirations.FindExpiration k =
        if st.keyExpirations.FindExpiration k = some NO_EXP_TS then none
        else st.keyExpirations.FindExpiration k) := by
  obtain ⟨hwf, hnd, hsz, hrange, hcover⟩ := hg
  set l := st.keyDataSpace.data.map (fun p =>
    (p.1, p.2, (st.keyExpirations.FindExpiration p.1).getD NO_EXP_TS))
    with hl
  have hbytes : saveRDBFile st.keyDataSpace.DeepCopy
      st.keyExpirations.DeepCopy st.keyExpirations =
      (l.map (fun e => writeRdbEntry e.1 e.2.1 e.2.2)).flatten := by
    unfold saveRDBFile KeyDataSpace.DeepCopy
    rw [hl, List.map_map]
    rfl
  have hkeys : l.map (fun e => e.1) =
      st.keyDataSpace.data.map Prod.fst := by
    rw [hl, List.map_map]
    rfl
  have hb : ∀ e ∈ l, e.1.length < 4294967296 ∧ e.2.1.length < 4294967296 ∧
      -9223372036854775808 ≤ e.2.2 ∧ e.2.2 < 9223372036854775808 := by
    intro e he
    rw [hl] at he
    obtain ⟨p, hp, hpe⟩ := List.mem_map.mp he
    obtain ⟨h1, h2⟩ := hsz p hp
    subst hpe
    refine ⟨h1, h2, ?_⟩
    cases hf : st.keyExpirations.FindExpiration p.1 with
    | none => simp [hf, NO_EXP_TS]
    | some t =>
      simp only [hf, Option.getD_some]
      exact ⟨(hrange p.1 t hf).1, (hrange p.1 t hf).2⟩
  refine ⟨l.foldl loadStep emptyServerState, ?_, ?_, ?_⟩
  · rw [hbytes, tryLoadRdbFile_eq_loop]
    exact loadRdbLoop_flatten_fold l emptyServerState hb
  · have hks := loadFold_ks l emptyServerState
    have hfold := foldl_mapInsert_fresh l
      emptyServerState.keyDataSpace.data
      (by intro e _; rfl) (by rw [hkeys]; exact hnd)
    have hmap : l.map (fun e => (e.1, e.2.1)) = st.keyDataSpace.data := by
      rw [hl, List.map_map]
      exact List.map_id st.keyDataSpace.data
    have : (l.foldl loadStep emptyServerState).keyDataSpace.data =
        st.keyDataSpace.data := by
      rw [hks, hfold]
      exact hmap
    cases hfin : (l.foldl loadStep emptyServerState).keyDataSpace with
    | mk d =>
      rw [hfin] at this
      simp only at this
      rw [this]
  · have hwfe : WFHeap emptyServerState.keyExpirations := WF_empty
    have hfr : ∀ e ∈ l,
        emptyServerState.keyExpirations.FindExpiration e.1 = none := by
      intro e _
      rfl
    obtain ⟨_, hchar⟩ := loadFold_FindExp l emptyServerState hwfe hfr
      (by rw [hkeys]; exact hnd)
    intro k
    rw [hchar k]
    have hlk : mapLookup (l.map (fun e => (e.1, e.2.2))) k =
        (mapLookup st.keyDataSpace.data k).map
          (fun _ => (st.keyExpirations.FindExpiration k).getD NO_EXP_TS) := by
      rw [hl, List.map_map]
      exact mapLookup_map_keyfn st.keyDataSpace.data
        (fun a => (st.keyExpirations.FindExpiration a).getD NO_EXP_TS) k
    rw [hlk]
    cases hget : mapLookup st.keyDataSpace.data k with
    | none =>
      have hnone : st.keyExpirations.FindExpiration k = none := by
        have := hcover k
        unfold KeyDataSpace.Get at this
        rw [hget] at this
        cases hf : st.keyExpirations.FindExpiration k with
        | none => rfl
        | some t =>
          rw [hf] at this
          simp at this
      simp only [Option.map_none', hnone]
      rw [if_neg (by simp)]
      rfl
    | some v =>
      have hsome : (st.keyExpirations.FindExpiration k).isSome := by
        have := hcover k
        unfold KeyDataSpace.Get at this
        rw [hget] at this
        simpa using this.1 (by simp)
      obtain ⟨t, ht⟩ := Option.isSome_iff_exists.mp hsome
      rw [ht]
      simp only [Option.map_some', Option.getD_some]
      by_cases hts : t = NO_EXP_TS
      · subst hts
        rw [if_neg (by simp [NO_EXP_TS]), if_pos rfl]
        rfl
      · rw [if_pos (by simpa using hts), if_neg (by simpa using hts)]

/-! ### Preservation of the state invariants by the command tails -/

theorem NodupKeys_mapInsert {α : Type} (m : List (ByteStr × α))
    (k : ByteStr) (v : α) (h : NodupKeys m) : NodupKeys (mapInsert m k v) := by
  induction m with
  | nil => simp [mapInsert, NodupKeys]
  | cons p m ih =>
    unfold NodupKeys at h
    simp only [List.map_cons, List.nodup_cons] at h
    by_cases hp : p.1 = k
    · unfold mapInsert NodupKeys
      rw [if_pos hp]
      simp only [List.map_cons, List.nodup_cons]
      exact ⟨hp ▸ h.1, h.2⟩
    · unfold mapInsert NodupKeys
      rw [if_neg hp]
      simp only [List.map_cons, List.nodup_cons]
      refine ⟨?_, ih h.2⟩
      intro hc
      rw [List.mem_map] at hc
      obtain ⟨q, hq, hq1⟩ := hc
      rcases mem_mapInsert m k v q hq with hm | he
      · exact h.1 (List.mem_map.mpr ⟨q, hm, hq1⟩)
      · subst he
        exact hp hq1.symm

theorem keys_mapErase_sub {α : Type} (m : List (ByteStr × α)) (k a : ByteStr)
    (h : a ∈ (mapErase m k).map Prod.fst) : a ∈ m.map Prod.fst := by
  rw [List.mem_map] at h ⊢
  obtain ⟨q, hq, hq1⟩ := h
  exact ⟨q, mem_mapErase m k q hq, hq1⟩

theorem NodupKeys_mapErase {α : Type} (m : List (ByteStr × α))
    (k : ByteStr) (h : NodupKeys m) : NodupKeys (mapErase m k) := by
  induction m with
  | nil => simp [mapErase, NodupKeys]
  | cons p m ih =>
    unfold NodupKeys at h
    simp only [List.map_cons, List.nodup_cons] at h
    unfold mapErase NodupKeys
    by_cases hp : p.1 = k
    · rw [if_pos hp]
      exact ih h.2
    · rw [if_neg hp]
      simp only [List.map_cons, List.nodup_cons]
      exact ⟨fun hc => h.1 (keys_mapErase_sub m k p.1 hc), ih h.2⟩

theorem mapErase_absent {α : Type} (m : List (ByteStr × α)) (k : ByteStr)
    (h : mapLookup m k = none) : mapErase m k = m := by
  induction m with
  | nil => rfl
  | cons p m ih =>
    unfold mapLookup at h
    by_cases hp : p.1 = k
    · rw [if_pos hp] at h
      cases h
    · rw [if_neg hp] at h
      unfold mapErase
      rw [if_neg hp, ih h]

theorem FindExp_empty (k : ByteStr) :
    NewKeyExpirationMinHeap.FindExpiration k = none := rfl

theorem GoodState_empty : GoodState emptyServerState := by
  refine ⟨WF_empty, ?_, ?_, ?_, ?_⟩
  · simp [NodupKeys, emptyServerState, NewKeyDataSpace]
  · intro p hp
    simp [emptyServerState, NewKeyDataSpace] at hp
  · intro k t ht
    rw [show emptyServerState.keyExpirations.FindExpiration k
        = none from rfl] at ht
    cases ht
  · intro k
    rw [show emptyServerState.keyDataSpace.Get k = none from rfl,
      show emptyServerState.keyExpirations.FindExpiration k = none from rfl]
    simp

theorem GoodState_applySet (st : ServerState) (key data : ByteStr)
    (ttl : Option Int) (now : Int) (hg : GoodState st)
    (hk : key.length < 4294967296) (hd : data.length < 4294967296) :
    GoodState (applySet st key data ttl now) := by
  obtain ⟨hwf, hnd, hsz, hrange, hcover⟩ := hg
  have hps := PushItem_spec st.keyExpirations ⟨key, setDeadline ttl now⟩ hwf
  refine ⟨hps.1, NodupKeys_mapInsert _ _ _ hnd, ?_, ?_, ?_⟩
  · intro p hp
    rcases mem_mapInsert st.keyDataSpace.data key data p hp with h | h
    · exact hsz p h
    · subst h
      exact ⟨hk, hd⟩
  · intro k t ht
    have ht2 := ht
    rw [show (applySet st key data ttl now).keyExpirations
        = st.keyExpirations.PushItem ⟨key, setDeadline ttl now⟩ from rfl,
      hps.2.1 k] at ht2
    by_cases hkk : k = key
    · rw [if_pos hkk] at ht2
      have hts := Option.some.inj ht2
      subst hts
      show -9223372036854775808 ≤ setDeadline ttl now ∧
        setDeadline ttl now < 9223372036854775808
      unfold setDeadline
      split
      · refine ⟨by norm_num [INT64_MAX], by norm_num [INT64_MAX]⟩
      · exact wrap64_bounds _
    · rw [if_neg hkk] at ht2
      exact hrange k t ht2
  · intro k
    show ((st.keyDataSpace.Add key data).Get k).isSome ↔
      ((st.keyExpirations.PushItem
        ⟨key, setDeadline ttl now⟩).FindExpiration k).isSome
    rw [Get_Add, hps.2.1 k]
    by_cases hkk : k = key
    · simp [hkk]
    · simp only [if_neg hkk]
      exact hcover k

theorem GoodState_applyDel (st : ServerState) (key : ByteStr)
    (hg : GoodState st) : GoodState (applyDel st key) := by
  obtain ⟨hwf, hnd, hsz, hrange, hcover⟩ := hg
  have hrem : WFHeap (st.keyExpirations.Remove key).2 ∧
      (∀ k, (st.keyExpirations.Remove key).2.FindExpiration k =
        if k = key then none else st.keyExpirations.FindExpiration k) := by
    cases hlk : mapLookup st.keyExpirations.index key with
    | none =>
      refine ⟨?_, ?_⟩
      · rw [Remove_absent st.keyExpirations key hlk]
        exact hwf
      · intro k
        rw [Remove_absent st.keyExpirations key hlk]
        show st.keyExpirations.FindExpiration k = _
        by_cases hkk : k = key
        · subst hkk
          rw [if_pos rfl]
          unfold KeyExpirationMinHeap.FindExpiration
          rw [hlk]
          rfl
        · rw [if_neg hkk]
    | some idx =>
      have hr := Remove_spec st.keyExpirations key idx hwf hlk
      exact ⟨hr.2.1, hr.2.2.2⟩
  refine ⟨hrem.1, NodupKeys_mapErase _ _ hnd, ?_, ?_, ?_⟩
  · intro p hp
    exact hsz p (mem_mapErase _ _ p hp)
  · intro k t ht
    have ht2 := ht
    rw [show (applyDel st key).keyExpirations
        = (st.keyExpirations.Remove key).2 from rfl, hrem.2 k] at ht2
    by_cases hkk : k = key
    · rw [if_pos hkk] at ht2
      cases ht2
    · rw [if_neg hkk] at ht2
      exact hrange k t ht2
  · intro k
    show ((st.keyDataSpace.Remove key).Get k).isSome ↔
      ((st.keyExpirations.Remove key).2.FindExpiration k).isSome
    rw [Get_Remove, hrem.2 k]
    by_cases hkk : k = key
    · simp [hkk]
    · simp only [if_neg hkk]
      exact hcover k

theorem GoodState_applySetexp (st : ServerState) (key : ByteStr)
    (sec now : Int) (hg : GoodState st) :
    GoodState (applySetexp st key sec now).1 := by
  obtain ⟨hwf, hnd, hsz, hrange, hcover⟩ := hg
  have hu := UpdateExpiration_spec st.keyExpirations key
    (wrap64 (now + sec * 1000)) hwf
  refine ⟨hu.1, hnd, hsz, ?_, ?_⟩
  · intro k t ht
    have ht2 := ht
    rw [show (applySetexp st key sec now).1.keyExpirations
        = (st.keyExpirations.UpdateExpiration key
            (wrap64 (now + sec * 1000))).1 from rfl, hu.2 k] at ht2
    by_cases hc : (mapLookup st.keyExpirations.index key).isSome ∧ k = key
    · rw [if_pos hc] at ht2
      have hts := Option.some.inj ht2
      subst hts
      exact wrap64_bounds _
    · rw [if_neg hc] at ht2
      exact hrange k t ht2
  · intro k
    show (st.keyDataSpace.Get k).isSome ↔
      ((st.keyExpirations.UpdateExpiration key
        (wrap64 (now + sec * 1000))).1.FindExpiration k).isSome
    rw [hu.2 k]
    by_cases hc : (mapLookup st.keyExpirations.index key).isSome ∧ k = key
    · rw [if_pos hc]
      have hgks : (st.keyDataSpace.Get k).isSome := by
        refine (hcover k).mpr ?_
        rw [hc.2, FindExp_isSome_iff]
        exact hc.1
      simp [hgks]
    · rw [if_neg hc]
      exact hcover k

/-! ### Command sequences (the client-visible mutators) and the
persistence round trip -/

/-- One parsed mutating command, with `time.Now().UnixMilli()` passed
explicitly as `now_ms`. -/
inductive Cmd
  | set (key data : ByteStr) (ttl : Option Int) (now_ms : Int)
  | del (key : ByteStr)
  | setexp (key : ByteStr) (ttl now_ms : Int)

/-- Execute one command against the two stores. -/
def execCmd (st : ServerState) : Cmd → ServerState
  | .set key data ttl now => applySet st key data ttl now
  | .del key => applyDel st key
  | .setexp key ttl now => (applySetexp st key ttl now).1

/-- Execute a sequence of commands in order. -/
def execCmds (st : ServerState) (cs : List Cmd) : ServerState :=
  cs.foldl execCmd st

/-- Keys and values fit the `uint32` length framing of the RDB file. -/
def cmdSized : Cmd → Prop
  | .set key data _ _ =>
      key.length < 4294967296 ∧ data.length < 4294967296
  | .del _ => True
  | .setexp _ _ _ => True

theorem GoodState_execCmd (st : ServerState) (c : Cmd) (hg : GoodState st)
    (hs : cmdSized c) : GoodState (execCmd st c) := by
  cases c with
  | set key data ttl now =>
    exact GoodState_applySet st key data ttl now hg hs.1 hs.2
  | del key => exact GoodState_applyDel st key hg
  | setexp key ttl now => exact GoodState_applySetexp st key ttl now hg

theorem GoodState_execCmds (st : ServerState) (cs : List Cmd)
    (hg : GoodState st) (hs : ∀ c ∈ cs, cmdSized c) :
    GoodState (execCmds st cs) := by
  induction cs generalizing st with
  | nil => exact hg
  | cons c cs ih =>
    exact ih (execCmd st c)
      (GoodState_execCmd st c hg (hs c (List.mem_cons_self c cs)))
      (fun x hx => hs x (List.mem_cons_of_mem c hx))

/-- C3: for any finite sequence of `SET`/`DEL`/`SETEXP` commands
executed sequentially from empty stores (with keys and values fitting
the `uint32` framing), writing a snapshot with `saveRDBFile` and
restoring it with `tryLoadRdbFile` into fresh empty stores succeeds and
yields identical `GET` results for every key and identical
`FindExpiration` results for every key, except that a stored deadline
equal to `NO_EXP_TS` is dropped by the load filter (the never-expires
normalization family of §4.6); deadlines equal to `INT64_MAX` are
reproduced verbatim. -/
theorem C3_persistence_roundtrip (cs : List Cmd)
    (hs : ∀ c ∈ cs, cmdSized c) :
    ∃ st2 : ServerState,
      tryLoadRdbFile
        (saveRDBFile (execCmds emptyServerState cs).keyDataSpace.DeepCopy
          (execCmds emptyServerState cs).keyExpirations.DeepCopy
          (execCmds emptyServerState cs).keyExpirations)
        emptyServerState = .ok st2 ∧
      (∀ k, st2.keyDataSpace.Get k =
        (execCmds emptyServerState cs).keyDataSpace.Get k) ∧
      (∀ k, st2.keyExpirations.FindExpiration k =
        if (execCmds emptyServerState cs).keyExpirations.FindExpiration k
            = some NO_EXP_TS then none
        else (execCmds emptyServerState cs).keyExpirations.FindExpiration k)
    := by
  obtain ⟨st2, hload, hks, hexp⟩ :=
    rdb_roundtrip_state (execCmds emptyServerState cs)
      (GoodState_execCmds emptyServerState cs GoodState_empty hs)
  exact ⟨st2, hload, fun k => by rw [hks], hexp⟩

theorem C3_persistence_roundtrip_witness :
    (∀ c ∈ [Cmd.set (strBytes "k") (strBytes "v") (some 5) 1000],
      cmdSized c) ∧
    (∃ st2 : ServerState,
      tryLoadRdbFile
        (saveRDBFile
          (execCmds emptyServerState
            [Cmd.set (strBytes "k") (strBytes "v")
              (some 5) 1000]).keyDataSpace.DeepCopy
          (execCmds emptyServerState
            [Cmd.set (strBytes "k") (strBytes "v")
              (some 5) 1000]).keyExpirations.DeepCopy
          (execCmds emptyServerState
            [Cmd.set (strBytes "k") (strBytes "v")
              (some 5) 1000]).keyExpirations)
        emptyServerState = .ok st2 ∧
      (∀ k, st2.keyDataSpace.Get k =
        (execCmds emptyServerState
          [Cmd.set (strBytes "k") (strBytes "v")
            (some 5) 1000]).keyDataSpace.Get k) ∧
      (∀ k, st2.keyExpirations.FindExpiration k =
        if (execCmds emptyServerState
            [Cmd.set (strBytes "k") (strBytes "v")
              (some 5) 1000]).keyExpirations.FindExpiration k
            = some NO_EXP_TS then none
        else (execCmds emptyServerState
          [Cmd.set (strBytes "k") (strBytes "v")
            (some 5) 1000]).keyExpirations.FindExpiration k)) := by
  have hs : ∀ c ∈ [Cmd.set (strBytes "k") (strBytes "v") (some 5) 1000],
      cmdSized c := by
    intro c hc
    rw [List.mem_singleton] at hc
    subst hc
    exact ⟨by decide, by decide⟩
  exact ⟨hs, C3_persistence_roundtrip _ hs⟩

/-! ### Concrete snapshot evaluations: C1 and C2 -/

theorem heapPush_empty (item : KeyExpiration) :
    heapPush NewKeyExpirationMinHeap item = ⟨[item], [(item.key, 0)]⟩ := by
  show upH (pushM NewKeyExpirationMinHeap item)
      ((pushM NewKeyExpirationMinHeap item).items.length - 1) = _
  rw [upH]
  have hl : (pushM NewKeyExpirationMinHeap item).items.length = 1 := rfl
  have hc : parentIdx ((pushM NewKeyExpirationMinHeap item).items.length - 1)
      = (pushM NewKeyExpirationMinHeap item).items.length - 1 := by
    rw [hl]
    decide
  rw [if_pos (Or.inl hc)]
  rfl

theorem PushItem_empty (item : KeyExpiration) :
    NewKeyExpirationMinHeap.PushItem item = ⟨[item], [(item.key, 0)]⟩ := by
  show heapPush NewKeyExpirationMinHeap item = _
  exact heapPush_empty item

/-- The state after `SET k v` without TTL at `now_ms = 0`: the stored
deadline is `INT64_MAX`. -/
def stC1 : ServerState :=
  applySet emptyServerState (strBytes "k") (strBytes "v") none 0

/-- C1 is false on the code at a concrete input: after `SET k v`
without TTL the stored deadline is `INT64_MAX`, and the snapshot file
written by `saveRDBFile` restores via `tryLoadRdbFile` to a state in
which `k` is present in the keyspace but still HAS an Expiration-Index
entry, equal to `INT64_MAX` — the emitted `deadline_ms` was not
normalized to `NO_EXP_TS`. -/
theorem C1_counterexample :
    stC1.keyExpirations.FindExpiration (strBytes "k") = some INT64_MAX ∧
    (∃ st2 : ServerState,
      tryLoadRdbFile
        (saveRDBFile stC1.keyDataSpace.DeepCopy stC1.keyExpirations.DeepCopy
          stC1.keyExpirations) emptyServerState = .ok st2 ∧
      st2.keyDataSpace.Get (strBytes "k") = some (strBytes "v") ∧
      st2.keyExpirations.FindExpiration (strBytes "k") = some INT64_MAX ∧
      st2.keyExpirations.FindExpiration (strBytes "k") ≠ none) := by
  have hfe : stC1.keyExpirations.FindExpiration (strBytes "k")
      = some INT64_MAX := by
    rw [show stC1.keyExpirations
        = NewKeyExpirationMinHeap.PushItem ⟨strBytes "k", setDeadline none 0⟩
        from rfl, show setDeadline none 0 = INT64_MAX from rfl,
      PushItem_empty]
    rfl
  refine ⟨hfe, ?_⟩
  have hsave : saveRDBFile stC1.keyDataSpace.DeepCopy
      stC1.keyExpirations.DeepCopy stC1.keyExpirations
      = ([(strBytes "k", strBytes "v", INT64_MAX)].map
          (fun e => writeRdbEntry e.1 e.2.1 e.2.2)).flatten := by
    unfold saveRDBFile
    rw [show stC1.keyDataSpace.DeepCopy.data
        = [(strBytes "k", strBytes "v")] from rfl]
    simp only [List.map_cons, List.map_nil]
    rw [hfe]
    rfl
  have hb : ∀ e ∈ [(strBytes "k", strBytes "v", INT64_MAX)],
      e.1.length < 4294967296 ∧ e.2.1.length < 4294967296 ∧
      -9223372036854775808 ≤ e.2.2 ∧ e.2.2 < 9223372036854775808 := by
    intro e he
    rw [List.mem_singleton] at he
    subst he
    exact ⟨by decide, by decide, by decide, by decide⟩
  have hload := loadRdbLoop_flatten [(strBytes "k", strBytes "v", INT64_MAX)]
    emptyServerState hb
  have hfe2 : (List.foldl loadStep emptyServerState
      [(strBytes "k", strBytes "v", INT64_MAX)]).keyExpirations.FindExpiration
      (strBytes "k") = some INT64_MAX := by
    show (loadStep emptyServerState
        (strBytes "k", strBytes "v", INT64_MAX)).keyExpirations.FindExpiration
        (strBytes "k") = some INT64_MAX
    rw [show (loadStep emptyServerState
        (strBytes "k", strBytes "v", INT64_MAX)).keyExpirations
        = NewKeyExpirationMinHeap.PushItem ⟨strBytes "k", INT64_MAX⟩ from rfl,
      PushItem_empty]
    rfl
  refine ⟨List.foldl loadStep emptyServerState
      [(strBytes "k", strBytes "v", INT64_MAX)], ?_, rfl, hfe2, ?_⟩
  · rw [hsave, tryLoadRdbFile_eq_loop, hload]
    rfl
  · rw [hfe2]
    simp

/-- C1 (amended): `saveRDBFile` performs no `INT64_MAX → NO_EXP_TS`
normalization.  A key whose stored deadline in the Expiration Index
equals `INT64_MAX` is persisted with `deadline_ms = INT64_MAX`
verbatim, and after a restore via `tryLoadRdbFile` the key is present
in the Keyspace WITH an Expiration-Index entry equal to `INT64_MAX`;
only a literal `NO_EXP_TS` deadline is dropped by the load filter. -/
theorem C1_int64max_persisted_verbatim (st : ServerState) (hg : GoodState st)
    (k : ByteStr)
    (hfe : st.keyExpirations.FindExpiration k = some INT64_MAX) :
    ∃ st2 : ServerState,
      tryLoadRdbFile
        (saveRDBFile st.keyDataSpace.DeepCopy st.keyExpirations.DeepCopy
          st.keyExpirations) emptyServerState = .ok st2 ∧
      st2.keyDataSpace.Get k = st.keyDataSpace.Get k ∧
      st2.keyExpirations.FindExpiration k = some INT64_MAX := by
  obtain ⟨st2, hload, hks, hexp⟩ := rdb_roundtrip_state st hg
  refine ⟨st2, hload, by rw [hks], ?_⟩
  rw [hexp k, hfe, if_neg (by simp [INT64_MAX, NO_EXP_TS])]

theorem C1_int64max_persisted_verbatim_witness :
    GoodState stC1 ∧
    stC1.keyExpirations.FindExpiration (strBytes "k") = some INT64_MAX ∧
    (∃ st2 : ServerState,
      tryLoadRdbFile
        (saveRDBFile stC1.keyDataSpace.DeepCopy stC1.keyExpirations.DeepCopy
          stC1.keyExpirations) emptyServerState = .ok st2 ∧
      st2.keyDataSpace.Get (strBytes "k")
        = stC1.keyDataSpace.Get (strBytes "k") ∧
      st2.keyExpirations.FindExpiration (strBytes "k") = some INT64_MAX) := by
  have hg : GoodState stC1 :=
    GoodState_applySet emptyServerState (strBytes "k") (strBytes "v") none 0
      GoodState_empty (by decide) (by decide)
  have hfe : stC1.keyExpirations.FindExpiration (strBytes "k")
      = some INT64_MAX := by
    rw [show stC1.keyExpirations
        = NewKeyExpirationMinHeap.PushItem ⟨strBytes "k", setDeadline none 0⟩
        from rfl, show setDeadline none 0 = INT64_MAX from rfl,
      PushItem_empty]
    rfl
  exact ⟨hg, hfe,
    C1_int64max_persisted_verbatim stC1 hg (strBytes "k") hfe⟩

/-- Keyspace for the C2 scenario: one key `k` with value `v`. -/
def ksC2 : KeyDataSpace := NewKeyDataSpace.Add (strBytes "k") (strBytes "v")

/-- The live (global) Expiration Index during the C2 snapshot tick:
`k`'s deadline was updated to `5000` after the deep copies were
taken. -/
def globalHeapC2 : KeyExpirationMinHeap :=
  NewKeyExpirationMinHeap.PushItem ⟨strBytes "k", 5000⟩

/-- The Expiration-Index deep copy taken at the start of the C2
snapshot tick: `k`'s deadline was `3000`. -/
def snapHeapC2 : KeyExpirationMinHeap :=
  NewKeyExpirationMinHeap.PushItem ⟨strBytes "k", 3000⟩

/-- C2 fails on the code: at a snapshot tick where the expiration deep
copy holds deadline `3000` for `k` but the live global heap holds
`5000`, the entry `saveRDBFile` writes carries the live heap's `5000`
— the body calls `keyExpirations.FindExpiration` on the global heap
and never consults its `expSnapshot` argument — so the written bytes
differ from the ones the snapshot copy would produce. -/
theorem C2_saveRDBFile_reads_global_heap :
    snapHeapC2.FindExpiration (strBytes "k") = some 3000 ∧
    globalHeapC2.FindExpiration (strBytes "k") = some 5000 ∧
    saveRDBFile ksC2.DeepCopy snapHeapC2 globalHeapC2
      = writeRdbEntry (strBytes "k") (strBytes "v") 5000 ∧
    saveRDBFile ksC2.DeepCopy snapHeapC2 globalHeapC2
      ≠ writeRdbEntry (strBytes "k") (strBytes "v") 3000 := by
  have h3 : snapHeapC2.FindExpiration (strBytes "k") = some 3000 := by
    rw [show snapHeapC2
        = NewKeyExpirationMinHeap.PushItem ⟨strBytes "k", 3000⟩ from rfl,
      PushItem_empty]
    rfl
  have h5 : globalHeapC2.FindExpiration (strBytes "k") = some 5000 := by
    rw [show globalHeapC2
        = NewKeyExpirationMinHeap.PushItem ⟨strBytes "k", 5000⟩ from rfl,
      PushItem_empty]
    rfl
  have hs : saveRDBFile ksC2.DeepCopy snapHeapC2 globalHeapC2
      = writeRdbEntry (strBytes "k") (strBytes "v") 5000 := by
    unfold saveRDBFile
    rw [show ksC2.DeepCopy.data = [(strBytes "k", strBytes "v")] from rfl]
    simp only [List.map_cons, List.map_nil]
    rw [h5]
    simp
  refine ⟨h3, h5, hs, ?_⟩
  rw [hs]
  decide

/-! ### The reaper: C8 -/

/-- The state after `SET k v -2` at `now_ms = 1999`: the computed
deadline is `wrap64(1999 + (-2)*1000) = -1 = NO_EXP_TS`. -/
def stC8 : ServerState :=
  applySet emptyServerState (strBytes "k") (strBytes "v") (some (-2)) 1999

/-- C8 is false on the code at a concrete input: a stored deadline can
equal `NO_EXP_TS = -1` (here via `SET k v -2` at `now_ms = 1999`), and
since `-1 ≤ now_ms` the reaper's next iteration evicts the entry,
removing the key from the keyspace — contradicting "entries whose
deadline is INT64_MAX or NO_EXP_TS are never evicted". -/
theorem C8_counterexample :
    stC8.keyExpirations.FindExpiration (strBytes "k") = some NO_EXP_TS ∧
    (reaperStep stC8 2000).2
      = .evicted ⟨strBytes "k", NO_EXP_TS⟩ ∧
    (reaperStep stC8 2000).1.keyDataSpace.Get (strBytes "k") = none := by
  have hheap : stC8.keyExpirations
      = ⟨[⟨strBytes "k", NO_EXP_TS⟩], [(strBytes "k", 0)]⟩ := by
    show NewKeyExpirationMinHeap.PushItem
      ⟨strBytes "k", setDeadline (some (-2)) 1999⟩ = _
    rw [show setDeadline (some (-2)) 1999 = NO_EXP_TS from by decide]
    exact PushItem_empty _
  refine ⟨?_, ?_, ?_⟩
  · rw [hheap]
    rfl
  · unfold reaperStep
    rw [hheap]
    rfl
  · unfold reaperStep
    rw [hheap]
    rfl

/-- C8 (amended): the reaper evicts only the peeked root entry and only
when its deadline has passed (`deadline ≤ now_ms`), so it never evicts
an unexpired key; an `INT64_MAX` deadline is never evicted while
`now_ms < INT64_MAX`; on eviction the key is removed from the keyspace
and the heap root is popped.  (`NO_EXP_TS` entries, whose deadline `-1`
is below any clock value, ARE evicted when they reach the root.) -/
theorem C8_reaper_eviction_due (st : ServerState) (now_ms : Int)
    (e : KeyExpiration) (hev : (reaperStep st now_ms).2 = .evicted e) :
    e.expire_timestamp ≤ now_ms ∧
    st.keyExpirations.Peek = some e ∧
    (now_ms < INT64_MAX → e.expire_timestamp ≠ INT64_MAX) ∧
    (reaperStep st now_ms).1.keyDataSpace
      = st.keyDataSpace.Remove e.key ∧
    (reaperStep st now_ms).1.keyExpirations
      = st.keyExpirations.PopMin.2 := by
  unfold reaperStep at hev ⊢
  cases hp : st.keyExpirations.Peek with
  | none =>
    rw [hp] at hev
    have hev2 : ReaperAction.slept = ReaperAction.evicted e := hev
    exact ReaperAction.noConfusion hev2
  | some keyExp =>
    rw [hp] at hev
    have hifev : (if now_ms ≥ keyExp.expire_timestamp then
        ({ keyDataSpace := st.keyDataSpace.Remove keyExp.key,
           keyExpirations := st.keyExpirations.PopMin.2 },
          ReaperAction.evicted keyExp)
        else (st, ReaperAction.slept)).2 = ReaperAction.evicted e := hev
    by_cases hge : now_ms ≥ keyExp.expire_timestamp
    · rw [if_pos hge] at hifev
      have hev2 : ReaperAction.evicted keyExp = ReaperAction.evicted e :=
        hifev
      have he : keyExp = e := by
        injection hev2
      subst he
      refine ⟨hge, rfl, ?_, ?_, ?_⟩
      · intro hlt hc
        rw [hc] at hge
        simp only [INT64_MAX] at hge hlt
        omega
      · show (if now_ms ≥ keyExp.expire_timestamp then
            ({ keyDataSpace := st.keyDataSpace.Remove keyExp.key,
               keyExpirations := st.keyExpirations.PopMin.2 },
              ReaperAction.evicted keyExp)
            else (st, ReaperAction.slept)).1.keyDataSpace
          = st.keyDataSpace.Remove keyExp.key
        rw [if_pos hge]
      · show (if now_ms ≥ keyExp.expire_timestamp then
            ({ keyDataSpace := st.keyDataSpace.Remove keyExp.key,
               keyExpirations := st.keyExpirations.PopMin.2 },
              ReaperAction.evicted keyExp)
            else (st, ReaperAction.slept)).1.keyExpirations
          = st.keyExpirations.PopMin.2
        rw [if_pos hge]
    · rw [if_neg hge] at hifev
      have hev2 : ReaperAction.slept = ReaperAction.evicted e := hifev
      exact ReaperAction.noConfusion hev2

theorem C8_reaper_eviction_due_witness :
    (reaperStep stC8 2000).2
      = .evicted ⟨strBytes "k", NO_EXP_TS⟩ ∧
    ((⟨strBytes "k", NO_EXP_TS⟩ : KeyExpiration).expire_timestamp ≤ 2000 ∧
     stC8.keyExpirations.Peek = some ⟨strBytes "k", NO_EXP_TS⟩ ∧
     ((2000 : Int) < INT64_MAX →
       (⟨strBytes "k", NO_EXP_TS⟩ : KeyExpiration).expire_timestamp
         ≠ INT64_MAX) ∧
     (reaperStep stC8 2000).1.keyDataSpace
       = stC8.keyDataSpace.Remove
           (⟨strBytes "k", NO_EXP_TS⟩ : KeyExpiration).key ∧
     (reaperStep stC8 2000).1.keyExpirations
       = stC8.keyExpirations.PopMin.2) := by
  have hheap : stC8.keyExpirations
      = ⟨[⟨strBytes "k", NO_EXP_TS⟩], [(strBytes "k", 0)]⟩ := by
    show NewKeyExpirationMinHeap.PushItem
      ⟨strBytes "k", setDeadline (some (-2)) 1999⟩ = _
    rw [show setDeadline (some (-2)) 1999 = NO_EXP_TS from by decide]
    exact PushItem_empty _
  have hev : (reaperStep stC8 2000).2
      = .evicted ⟨strBytes "k", NO_EXP_TS⟩ := by
    unfold reaperStep
    rw [hheap]
    rfl
  exact ⟨hev,
    C8_reaper_eviction_due stC8 2000 ⟨strBytes "k", NO_EXP_TS⟩ hev⟩

/-! ### The client tokenizer (src/client/client_main.go) -/

/-- `isSpaceTab` (client_main.go lines 266-268). -/
def isSpaceTab (b : Nat) : Bool := b == 32 || b == 9

/-- `ErrNoToken` / `ErrMalformed` (client_main.go lines 104-110). -/
inductive TokErr
  | noToken
  | malformed
deriving DecidableEq

/-- `cutFirstTokenSpaceTab` (client_main.go lines 116-133): skip
leading separators, take the first run of non-separators, consume the
separators after it; `(\"\", s, ErrNoToken)` when nothing remains. -/
def cutFirstTokenSpaceTab (s : ByteStr) : ByteStr × ByteStr × Option TokErr :=
  if (s.dropWhile isSpaceTab).isEmpty then ([], s, some .noToken)
  else ((s.dropWhile isSpaceTab).takeWhile (fun b => !isSpaceTab b),
    ((s.dropWhile isSpaceTab).dropWhile (fun b => !isSpaceTab b)).dropWhile
      isSpaceTab,
    none)

/-- The quoted-string scan of `cutFirstTokenSmart` (client_main.go
lines 159-189), positioned after the opening quote with the given
escape flag: returns the consumed bytes (closing quote included) and
the raw remainder, or `none` when input ends before a non-escaped
closing quote. -/
def scanQuoted (s : ByteStr) (escaped : Bool) : Option (ByteStr × ByteStr) :=
  match s with
  | [] => none
  | c :: rest =>
    if escaped then
      (scanQuoted rest false).map (fun r => (c :: r.1, r.2))
    else if c = 92 then
      (scanQuoted rest true).map (fun r => (c :: r.1, r.2))
    else if c = 34 then
      some ([c], rest)
    else
      (scanQuoted rest false).map (fun r => (c :: r.1, r.2))

/-- The JSON-like block scan of `cutFirstTokenSmart` (client_main.go
lines 191-249): brace/bracket depths, in-string and escape state
exactly as in the Go loop; after each byte processed outside a string
the token ends when both depths are zero; `none` on a negative depth
or exhausted input. -/
def scanBlock (s : ByteStr) (braceDepth bracketDepth : Int)
    (inString escaped : Bool) : Option (ByteStr × ByteStr) :=
  match s with
  | [] => none
  | c :: rest =>
    if inString then
      if escaped then
        (scanBlock rest braceDepth bracketDepth true false).map
          (fun r => (c :: r.1, r.2))
      else if c = 92 then
        (scanBlock rest braceDepth bracketDepth true true).map
          (fun r => (c :: r.1, r.2))
      else if c = 34 then
        (scanBlock rest braceDepth bracketDepth false false).map
          (fun r => (c :: r.1, r.2))
      else
        (scanBlock rest braceDepth bracketDepth true false).map
          (fun r => (c :: r.1, r.2))
    else if c = 34 then
      if braceDepth = 0 ∧ bracketDepth = 0 then some ([c], rest)
      else (scanBlock rest braceDepth bracketDepth true false).map
        (fun r => (c :: r.1, r.2))
    else if c = 123 then
      if braceDepth + 1 = 0 ∧ bracketDepth = 0 then some ([c], rest)
      else (scanBlock rest (braceDepth + 1) bracketDepth false false).map
        (fun r => (c :: r.1, r.2))
    else if c = 125 then
      if braceDepth - 1 < 0 then none
      else if braceDepth - 1 = 0 ∧ bracketDepth = 0 then some ([c], rest)
      else (scanBlock rest (braceDepth - 1) bracketDepth false false).map
        (fun r => (c :: r.1, r.2))
    else if c = 91 then
      if braceDepth = 0 ∧ bracketDepth + 1 = 0 then some ([c], rest)
      else (scanBlock rest braceDepth (bracketDepth + 1) false false).map
        (fun r => (c :: r.1, r.2))
    else if c = 93 then
      if bracketDepth - 1 < 0 then none
      else if braceDepth = 0 ∧ bracketDepth - 1 = 0 then some ([c], rest)
      else (scanBlock rest braceDepth (bracketDepth - 1) false false).map
        (fun r => (c :: r.1, r.2))
    else
      if braceDepth = 0 ∧ bracketDepth = 0 then some ([c], rest)
      else (scanBlock rest braceDepth bracketDepth false false).map
        (fun r => (c :: r.1, r.2))

/-- `cutFirstTokenSmart` (client_main.go lines 146-264): skip leading
separators; dispatch on the first byte (quoted string, JSON-like
block, or bare token); on success consume trailing separators; on a
malformed token return the whole original input with `ErrMalformed`. -/
def cutFirstTokenSmart (s : ByteStr) : ByteStr × ByteStr × Option TokErr :=
  match s.dropWhile isSpaceTab with
  | [] => ([], s, some .noToken)
  | c :: rest =>
    if c = 34 then
      match scanQuoted rest false with
      | some r => (c :: r.1, r.2.dropWhile isSpaceTab, none)
      | none => ([], s, some .malformed)
    else if c = 123 ∨ c = 91 then
      match scanBlock (c :: rest) 0 0 false false with
      | some r => (r.1, r.2.dropWhile isSpaceTab, none)
      | none => ([], s, some .malformed)
    else
      ((c :: rest).takeWhile (fun b => !isSpaceTab b),
       ((c :: rest).dropWhile (fun b => !isSpaceTab b)).dropWhile isSpaceTab,
       none)

/-- Spec reading of the quoted-string scan (§5's words): a backslash
escapes exactly the next byte — both are consumed and the escaped byte
cannot end the string — the first non-escaped `"` ends the token and
is included, and exhausted input fails. -/
def quotedTokenSpec : ByteStr → Option (ByteStr × ByteStr)
  | [] => none
  | 92 :: [] => none
  | 92 :: d :: rest2 =>
      (quotedTokenSpec rest2).map (fun r => (92 :: d :: r.1, r.2))
  | c :: rest =>
    if c = 34 then some ([c], rest)
    else (quotedTokenSpec rest).map (fun r => (c :: r.1, r.2))

theorem quotedTokenSpec_other (c : Nat) (rest : ByteStr) (h92 : ¬ c = 92) :
    quotedTokenSpec (c :: rest) = if c = 34 then some ([c], rest)
      else (quotedTokenSpec rest).map (fun r => (c :: r.1, r.2)) := by
  rw [quotedTokenSpec.eq_def]
  split
  · rename_i heq
    cases heq
  · rename_i heq
    rw [List.cons.injEq] at heq
    exact absurd heq.1 h92
  · rename_i d rest2 heq
    rw [List.cons.injEq] at heq
    exact absurd heq.1 h92
  · rename_i hne1 hne2 heq
    rw [List.cons.injEq] at heq
    rw [heq.1, heq.2]

theorem scanQuoted_eq_spec_aux :
    ∀ n (s : ByteStr), s.length ≤ n →
      scanQuoted s false = quotedTokenSpec s := by
  intro n
  induction n with
  | zero =>
    intro s hs
    have hnil : s = [] := List.eq_nil_of_length_eq_zero (Nat.le_zero.mp hs)
    subst hnil
    rfl
  | succ n ih =>
    intro s hs
    cases s with
    | nil => rfl
    | cons c rest =>
      by_cases h92 : c = 92
      · subst h92
        cases rest with
        | nil => rfl
        | cons d rest2 =>
          have hrec := ih rest2 (by
            simp only [List.length_cons] at hs
            omega)
          show (scanQuoted (d :: rest2) true).map
              (fun r => ((92 : Nat) :: r.1, r.2))
            = (quotedTokenSpec rest2).map
              (fun r => ((92 : Nat) :: d :: r.1, r.2))
          have hstep : scanQuoted (d :: rest2) true
              = (scanQuoted rest2 false).map (fun r => (d :: r.1, r.2)) := by
            rw [scanQuoted]
            rfl
          rw [hstep, hrec]
          cases quotedTokenSpec rest2 with
          | none => rfl
          | some r => rfl
      · by_cases h34 : c = 34
        · subst h34
          rfl
        · have hrec := ih rest (by
            simp only [List.length_cons] at hs
            omega)
          rw [scanQuoted, if_neg h92, if_neg h34,
            quotedTokenSpec_other c rest h92, if_neg h34, hrec]
          cases quotedTokenSpec rest with
          | none => rfl
          | some r => rfl

theorem scanQuoted_eq_spec (s : ByteStr) :
    scanQuoted s false = quotedTokenSpec s :=
  scanQuoted_eq_spec_aux s.length s (le_refl _)

/-- C7: on every input whose first non-separator byte is `"`,
`cutFirstTokenSmart` computes exactly the spec's quoted-string
reading: the returned token starts at the opening quote and ends at
(and includes) the first non-escaped `"` — a backslash escapes exactly
the next byte, and an escaped `"` never terminates the token — and if
input ends before a non-escaped closing `"` the call fails with
`ErrMalformed` and the remainder is the original input. -/
theorem C7_quoted_token (s rest : ByteStr)
    (h : s.dropWhile isSpaceTab = 34 :: rest) :
    cutFirstTokenSmart s =
      match quotedTokenSpec rest with
      | some r => (34 :: r.1, r.2.dropWhile isSpaceTab, none)
      | none => ([], s, some TokErr.malformed) := by
  unfold cutFirstTokenSmart
  rw [h]
  show (match scanQuoted rest false with
    | some r => ((34 : Nat) :: r.1, r.2.dropWhile isSpaceTab,
        (none : Option TokErr))
    | none => ([], s, some TokErr.malformed)) = _
  rw [scanQuoted_eq_spec]

/-- Concrete C7 input: `space " a \ " b " x`. -/
def c7input : ByteStr := [32, 34, 97, 92, 34, 98, 34, 120]

theorem C7_quoted_token_witness :
    c7input.dropWhile isSpaceTab = 34 :: [97, 92, 34, 98, 34, 120] ∧
    cutFirstTokenSmart c7input =
      match quotedTokenSpec [97, 92, 34, 98, 34, 120] with
      | some r => (34 :: r.1, r.2.dropWhile isSpaceTab, none)
      | none => ([], c7input, some TokErr.malformed) := by
  have h : c7input.dropWhile isSpaceTab
      = 34 :: [97, 92, 34, 98, 34, 120] := by decide
  exact ⟨h, C7_quoted_token c7input [97, 92, 34, 98, 34, 120] h⟩

/-- One byte of the spec's block-scan state machine (§5's words for
C6): brace/bracket counters updated only outside quoted strings, a
decrement below zero outside a string fails; inside a string only the
escape flag and a closing quote matter.  State:
`(braceDepth, bracketDepth, inString, escaped)`. -/
def blkStep (bd bk : Int) (inS esc : Bool) (c : Nat) :
    Option (Int × Int × Bool × Bool) :=
  if inS then
    if esc then some (bd, bk, true, false)
    else if c = 92 then some (bd, bk, true, true)
    else if c = 34 then some (bd, bk, false, false)
    else some (bd, bk, true, false)
  else if c = 34 then some (bd, bk, true, false)
  else if c = 123 then some (bd + 1, bk, false, false)
  else if c = 125 then
    if bd - 1 < 0 then none else some (bd - 1, bk, false, false)
  else if c = 91 then some (bd, bk + 1, false, false)
  else if c = 93 then
    if bk - 1 < 0 then none else some (bd, bk - 1, false, false)
  else some (bd, bk, false, false)

/-- Spec reading of the block scan: feed bytes through the state
machine; the token ends, inclusively, at the first byte processed
outside a string that brings both counters to zero; a counter
decremented below zero, or input exhausted before that byte (also
while still inside a string), fails. -/
def blockTokenSpec : ByteStr → Int → Int → Bool → Bool →
    Option (ByteStr × ByteStr)
  | [], _, _, _, _ => none
  | c :: rest, bd, bk, inS, esc =>
    match blkStep bd bk inS esc c with
    | none => none
    | some st2 =>
      if inS = false ∧ st2.1 = 0 ∧ st2.2.1 = 0 then some ([c], rest)
      else (blockTokenSpec rest st2.1 st2.2.1 st2.2.2.1 st2.2.2.2).map
        (fun r => (c :: r.1, r.2))

theorem scanBlock_eq_spec (s : ByteStr) : ∀ (bd bk : Int) (inS esc : Bool),
    scanBlock s bd bk inS esc = blockTokenSpec s bd bk inS esc := by
  induction s with
  | nil =>
    intro bd bk inS esc
    rfl
  | cons c rest ih =>
    intro bd bk inS esc
    cases inS with
    | true =>
      cases esc with
      | true =>
        show (scanBlock rest bd bk true false).map (fun r => (c :: r.1, r.2))
          = (blockTokenSpec rest bd bk true false).map
            (fun r => (c :: r.1, r.2))
        rw [ih]
      | false =>
        by_cases h92 : c = 92
        · subst h92
          show (scanBlock rest bd bk true true).map
              (fun r => ((92 : Nat) :: r.1, r.2))
            = (blockTokenSpec rest bd bk true true).map
              (fun r => ((92 : Nat) :: r.1, r.2))
          rw [ih]
        · by_cases h34 : c = 34
          · subst h34
            show (scanBlock rest bd bk false false).map
                (fun r => ((34 : Nat) :: r.1, r.2))
              = (blockTokenSpec rest bd bk false false).map
                (fun r => ((34 : Nat) :: r.1, r.2))
            rw [ih]
          · have hL : scanBlock (c :: rest) bd bk true false
                = (scanBlock rest bd bk true false).map
                  (fun r => (c :: r.1, r.2)) := by
              rw [scanBlock]
              simp only [if_neg h92, if_neg h34]
              rfl
            have hR : blockTokenSpec (c :: rest) bd bk true false
                = (blockTokenSpec rest bd bk true false).map
                  (fun r => (c :: r.1, r.2)) := by
              rw [blockTokenSpec]
              rw [show blkStep bd bk true false c
                  = (if c = 92 then some (bd, bk, true, true)
                    else if c = 34 then some (bd, bk, false, false)
                    else some (bd, bk, true, false)) from rfl]
              simp only [if_neg h92, if_neg h34]
              rfl
            rw [hL, hR, ih]
    | false =>
      by_cases h34 : c = 34
      · subst h34
        have hL : scanBlock ((34 : Nat) :: rest) bd bk false esc
            = (if bd = 0 ∧ bk = 0 then some ([(34 : Nat)], rest)
              else (scanBlock rest bd bk true false).map
                (fun r => ((34 : Nat) :: r.1, r.2))) := rfl
        have hR : blockTokenSpec ((34 : Nat) :: rest) bd bk false esc
            = (if false = false ∧ bd = 0 ∧ bk = 0 then
                some ([(34 : Nat)], rest)
              else (blockTokenSpec rest bd bk true false).map
                (fun r => ((34 : Nat) :: r.1, r.2))) := rfl
        rw [hL, hR]
        by_cases hz : bd = 0 ∧ bk = 0
        · rw [if_pos hz, if_pos ⟨rfl, hz⟩]
        · rw [if_neg hz, if_neg (fun hcon => hz hcon.2), ih]
      · by_cases h123 : c = 123
        · subst h123
          have hL : scanBlock ((123 : Nat) :: rest) bd bk false esc
              = (if bd + 1 = 0 ∧ bk = 0 then some ([(123 : Nat)], rest)
                else (scanBlock rest (bd + 1) bk false false).map
                  (fun r => ((123 : Nat) :: r.1, r.2))) := rfl
          have hR : blockTokenSpec ((123 : Nat) :: rest) bd bk false esc
              = (if false = false ∧ bd + 1 = 0 ∧ bk = 0 then
                  some ([(123 : Nat)], rest)
                else (blockTokenSpec rest (bd + 1) bk false false).map
                  (fun r => ((123 : Nat) :: r.1, r.2))) := rfl
          rw [hL, hR]
          by_cases hz : bd + 1 = 0 ∧ bk = 0
          · rw [if_pos hz, if_pos ⟨rfl, hz⟩]
          · rw [if_neg hz, if_neg (fun hcon => hz hcon.2), ih]
        · by_cases h125 : c = 125
          · subst h125
            have hL : scanBlock ((125 : Nat) :: rest) bd bk false esc
                = (if bd - 1 < 0 then none
                  else if bd - 1 = 0 ∧ bk = 0 then some ([(125 : Nat)], rest)
                  else (scanBlock rest (bd - 1) bk false false).map
                    (fun r => ((125 : Nat) :: r.1, r.2))) := rfl
            by_cases hneg : bd - 1 < 0
            · have hR : blockTokenSpec ((125 : Nat) :: rest) bd bk false esc
                  = none := by
                rw [blockTokenSpec]
                rw [show blkStep bd bk false esc (125 : Nat)
                    = (if bd - 1 < 0 then none
                      else some (bd - 1, bk, false, false)) from rfl]
                rw [if_pos hneg]
              rw [hL, hR, if_pos hneg]
            · have hR : blockTokenSpec ((125 : Nat) :: rest) bd bk false esc
                  = (if false = false ∧ bd - 1 = 0 ∧ bk = 0 then
                      some ([(125 : Nat)], rest)
                    else (blockTokenSpec rest (bd - 1) bk false false).map
                      (fun r => ((125 : Nat) :: r.1, r.2))) := by
                rw [blockTokenSpec]
                rw [show blkStep bd bk false esc (125 : Nat)
                    = (if bd - 1 < 0 then none
                      else some (bd - 1, bk, false, false)) from rfl]
                rw [if_neg hneg]
              rw [hL, hR, if_neg hneg]
              by_cases hz : bd - 1 = 0 ∧ bk = 0
              · rw [if_pos hz, if_pos ⟨rfl, hz⟩]
              · rw [if_neg hz, if_neg (fun hcon => hz hcon.2), ih]
          · by_cases h91 : c = 91
            · subst h91
              have hL : scanBlock ((91 : Nat) :: rest) bd bk false esc
                  = (if bd = 0 ∧ bk + 1 = 0 then some ([(91 : Nat)], rest)
                    else (scanBlock rest bd (bk + 1) false false).map
                      (fun r => ((91 : Nat) :: r.1, r.2))) := rfl
              have hR : blockTokenSpec ((91 : Nat) :: rest) bd bk false esc
                  = (if false = false ∧ bd = 0 ∧ bk + 1 = 0 then
                      some ([(91 : Nat)], rest)
                    else (blockTokenSpec rest bd (bk + 1) false false).map
                      (fun r => ((91 : Nat) :: r.1, r.2))) := rfl
              rw [hL, hR]
              by_cases hz : bd = 0 ∧ bk + 1 = 0
              · rw [if_pos hz, if_pos ⟨rfl, hz⟩]
              · rw [if_neg hz, if_neg (fun hcon => hz hcon.2), ih]
            · by_cases h93 : c = 93
              · subst h93
                have hL : scanBlock ((93 : Nat) :: rest) bd bk false esc
                    = (if bk - 1 < 0 then none
                      else if bd = 0 ∧ bk - 1 = 0 then
                        some ([(93 : Nat)], rest)
                      else (scanBlock rest bd (bk - 1) false false).map
                        (fun r => ((93 : Nat) :: r.1, r.2))) := rfl
                by_cases hneg : bk - 1 < 0
                · have hR : blockTokenSpec ((93 : Nat) :: rest) bd bk false
                      esc = none := by
                    rw [blockTokenSpec]
                    rw [show blkStep bd bk false esc (93 : Nat)
                        = (if bk - 1 < 0 then none
                          else some (bd, bk - 1, false, false)) from rfl]
                    rw [if_pos hneg]
                  rw [hL, hR, if_pos hneg]
                · have hR : blockTokenSpec ((93 : Nat) :: rest) bd bk false
                      esc
                      = (if false = false ∧ bd = 0 ∧ bk - 1 = 0 then
                          some ([(93 : Nat)], rest)
                        else (blockTokenSpec rest bd (bk - 1) false
                            false).map
                          (fun r => ((93 : Nat) :: r.1, r.2))) := by
                    rw [blockTokenSpec]
                    rw [show blkStep bd bk false esc (93 : Nat)
                        = (if bk - 1 < 0 then none
                          else some (bd, bk - 1, false, false)) from rfl]
                    rw [if_neg hneg]
                  rw [hL, hR, if_neg hneg]
                  by_cases hz : bd = 0 ∧ bk - 1 = 0
                  · rw [if_pos hz, if_pos ⟨rfl, hz⟩]
                  · rw [if_neg hz, if_neg (fun hcon => hz hcon.2), ih]
              · have hL : scanBlock (c :: rest) bd bk false esc
                    = (if bd = 0 ∧ bk = 0 then some ([c], rest)
                      else (scanBlock rest bd bk false false).map
                        (fun r => (c :: r.1, r.2))) := by
                  rw [scanBlock]
                  simp only [if_neg h34, if_neg h123, if_neg h125,
                    if_neg h91, if_neg h93]
                  rfl
                have hR : blockTokenSpec (c :: rest) bd bk false esc
                    = (if false = false ∧ bd = 0 ∧ bk = 0 then
                        some ([c], rest)
                      else (blockTokenSpec rest bd bk false false).map
                        (fun r => (c :: r.1, r.2))) := by
                  rw [blockTokenSpec]
                  rw [show blkStep bd bk false esc c
                      = (if c = 34 then some (bd, bk, true, false)
                        else if c = 123 then some (bd + 1, bk, false, false)
                        else if c = 125 then
                          (if bd - 1 < 0 then none
                            else some (bd - 1, bk, false, false))
                        else if c = 91 then some (bd, bk + 1, false, false)
                        else if c = 93 then
                          (if bk - 1 < 0 then none
                            else some (bd, bk - 1, false, false))
                        else some (bd, bk, false, false)) from rfl]
                  simp only [if_neg h34, if_neg h123, if_neg h125,
                    if_neg h91, if_neg h93]
                rw [hL, hR]
                by_cases hz : bd = 0 ∧ bk = 0
                · rw [if_pos hz, if_pos ⟨rfl, hz⟩]
                · rw [if_neg hz, if_neg (fun hcon => hz hcon.2), ih]

/-- C6: on every input whose first non-separator byte is `{` or `[`,
`cutFirstTokenSmart` computes exactly the spec's block reading: the
token ends, inclusively, at the byte that brings both the brace and
the bracket counter to zero (counters updated only outside quoted
strings), and the call fails with `ErrMalformed` — returning the
original input as remainder — exactly when a counter is decremented
below zero outside a string or input ends before both counters return
to zero (or while still inside a string). -/
theorem C6_block_token (s : ByteStr) (c : Nat) (rest : ByteStr)
    (h : s.dropWhile isSpaceTab = c :: rest) (hc : c = 123 ∨ c = 91) :
    cutFirstTokenSmart s =
      match blockTokenSpec (c :: rest) 0 0 false false with
      | some r => (r.1, r.2.dropWhile isSpaceTab, none)
      | none => ([], s, some TokErr.malformed) := by
  have h34 : ¬ (c = 34) := by
    rcases hc with h1 | h1 <;> omega
  unfold cutFirstTokenSmart
  rw [h]
  show (if c = 34 then
      match scanQuoted rest false with
      | some r => (c :: r.1, r.2.dropWhile isSpaceTab, (none : Option TokErr))
      | none => ([], s, some TokErr.malformed)
    else if c = 123 ∨ c = 91 then
      match scanBlock (c :: rest) 0 0 false false with
      | some r => (r.1, r.2.dropWhile isSpaceTab, none)
      | none => ([], s, some TokErr.malformed)
    else ((c :: rest).takeWhile (fun b => !isSpaceTab b),
      ((c :: rest).dropWhile (fun b => !isSpaceTab b)).dropWhile isSpaceTab,
      none)) = _
  rw [if_neg h34, if_pos hc, scanBlock_eq_spec]

/-- Concrete C6 input: `tab { " } " } space x`. -/
def c6input : ByteStr := [9, 123, 34, 125, 34, 125, 32, 120]

theorem C6_block_token_witness :
    c6input.dropWhile isSpaceTab = 123 :: [34, 125, 34, 125, 32, 120] ∧
    ((123 : Nat) = 123 ∨ (123 : Nat) = 91) ∧
    cutFirstTokenSmart c6input =
      match blockTokenSpec (123 :: [34, 125, 34, 125, 32, 120]) 0 0 false
          false with
      | some r => (r.1, r.2.dropWhile isSpaceTab, none)
      | none => ([], c6input, some TokErr.malformed) := by
  have h : c6input.dropWhile isSpaceTab
      = 123 :: [34, 125, 34, 125, 32, 120] := by decide
  exact ⟨h, Or.inl rfl,
    C6_block_token c6input 123 [34, 125, 34, 125, 32, 120] h (Or.inl rfl)⟩

/-! ### The GET and DEL handlers and the reply line (C9, C10) -/

theorem takeWhile_all (p : Nat → Bool) (l : ByteStr)
    (hall : ∀ b ∈ l, p b = true) : l.takeWhile p = l := by
  induction l with
  | nil => rfl
  | cons c l ih =>
    rw [List.takeWhile_cons, if_pos (hall c (List.mem_cons_self c l)),
      ih (fun b hb => hall b (List.mem_cons_of_mem c hb))]

theorem dropWhile_all (p : Nat → Bool) (l : ByteStr)
    (hall : ∀ b ∈ l, p b = true) : l.dropWhile p = [] := by
  induction l with
  | nil => rfl
  | cons c l ih =>
    rw [List.dropWhile_cons, if_pos (hall c (List.mem_cons_self c l)),
      ih (fun b hb => hall b (List.mem_cons_of_mem c hb))]

/-- On a nonempty, separator-free argument the space/tab tokenizer
returns the whole argument as the token. -/
theorem cutTab_clean (k : ByteStr) (hk : k ≠ [])
    (hsep : ∀ b ∈ k, isSpaceTab b = false) :
    cutFirstTokenSpaceTab k = (k, [], none) := by
  have htw : k.takeWhile (fun b => !isSpaceTab b) = k :=
    takeWhile_all _ k (fun b hb => by rw [hsep b hb]; rfl)
  have hdw2 : k.dropWhile (fun b => !isSpaceTab b) = [] :=
    dropWhile_all _ k (fun b hb => by rw [hsep b hb]; rfl)
  cases k with
  | nil => exact absurd rfl hk
  | cons c l =>
    have hdw : (c :: l).dropWhile isSpaceTab = c :: l := by
      rw [List.dropWhile_cons, if_neg (by
        rw [hsep c (List.mem_cons_self c l)]
        simp)]
    unfold cutFirstTokenSpaceTab
    rw [hdw, htw, hdw2]
    rw [if_neg (by simp)]
    rfl

/-- The messages of `ErrNoToken` and `ErrMalformed`. -/
def tokErrMsg : TokErr → ByteStr
  | .noToken => strBytes "missing token"
  | .malformed => strBytes "malformed token"

/-- `GET` (part_002 lines 53-66): tokenize the key, look it up; the
body only reads the stores, so they are returned unchanged. -/
def GET (st : ServerState) (args : ByteStr) :
    ServerState × Except ByteStr ByteStr :=
  match cutFirstTokenSpaceTab args with
  | (_, _, some e) =>
      (st, .error (strBytes "command parsing error: " ++ tokErrMsg e))
  | (key, _, none) =>
    match st.keyDataSpace.Get key with
    | none => (st, .error (strBytes "No such KEY is present: " ++ key))
    | some value => (st, .ok value)

/-- `DEL` (part_002 lines 108-119): tokenize the key, remove it from
both stores, reply `"OK"`. -/
def DEL (st : ServerState) (args : ByteStr) :
    ServerState × Except ByteStr ByteStr :=
  match cutFirstTokenSpaceTab args with
  | (_, _, some e) =>
      (st, .error (strBytes "command parsing error: " ++ tokErrMsg e))
  | (key, _, none) =>
      (applyDel st key, .ok (strBytes "OK"))

/-- Reply-line formation of `handleClientServerRoutine` (routines.go
lines 64-72): an error becomes `"ERR: " + message`; an empty success
result becomes `"OK"`; any other result is sent as is. -/
def replyLine (r : Except ByteStr ByteStr) : ByteStr :=
  match r with
  | .error e => strBytes "ERR: " ++ e
  | .ok res => if res = [] then strBytes "OK" else res

/-- C9: for every nonempty separator-free key `k`, `GET k` leaves both
stores unchanged; when `k` is present it returns the stored value, and
when `k` is absent it fails so that the connection handler emits the
single reply line `ERR: No such KEY is present: <k>`. -/
theorem C9_get_semantics (st : ServerState) (k : ByteStr) (hk : k ≠ [])
    (hsep : ∀ b ∈ k, isSpaceTab b = false) :
    (GET st k).1 = st ∧
    (∀ v, st.keyDataSpace.Get k = some v → (GET st k).2 = .ok v) ∧
    (st.keyDataSpace.Get k = none →
      (GET st k).2 = .error (strBytes "No such KEY is present: " ++ k) ∧
      replyLine (GET st k).2
        = strBytes "ERR: No such KEY is present: " ++ k) := by
  have hcut := cutTab_clean k hk hsep
  have hGET : GET st k = match st.keyDataSpace.Get k with
      | none => (st, .error (strBytes "No such KEY is present: " ++ k))
      | some value => (st, .ok value) := by
    unfold GET
    rw [hcut]
  cases hget : st.keyDataSpace.Get k with
  | none =>
    rw [hget] at hGET
    refine ⟨?_, ?_, ?_⟩
    · rw [hGET]
    · intro v hv
      cases hv
    · intro _
      constructor
      · rw [hGET]
      · rw [hGET]
        show strBytes "ERR: " ++ (strBytes "No such KEY is present: " ++ k)
          = strBytes "ERR: No such KEY is present: " ++ k
        rw [← List.append_assoc]
        rw [show strBytes "ERR: " ++ strBytes "No such KEY is present: "
            = strBytes "ERR: No such KEY is present: " from by decide]
  | some v0 =>
    rw [hget] at hGET
    refine ⟨?_, ?_, ?_⟩
    · rw [hGET]
    · intro v hv
      have hv2 := Option.some.inj hv
      subst hv2
      rw [hGET]
    · intro hnone
      cases hnone

theorem C9_get_semantics_witness :
    (strBytes "k" ≠ []) ∧
    (∀ b ∈ strBytes "k", isSpaceTab b = false) ∧
    ((GET emptyServerState (strBytes "k")).1 = emptyServerState ∧
     (∀ v, emptyServerState.keyDataSpace.Get (strBytes "k") = some v →
       (GET emptyServerState (strBytes "k")).2 = .ok v) ∧
     (emptyServerState.keyDataSpace.Get (strBytes "k") = none →
       (GET emptyServerState (strBytes "k")).2
         = .error (strBytes "No such KEY is present: " ++ strBytes "k") ∧
       replyLine (GET emptyServerState (strBytes "k")).2
         = strBytes "ERR: No such KEY is present: " ++ strBytes "k")) :=
  ⟨by decide, by decide,
    C9_get_semantics emptyServerState (strBytes "k") (by decide) (by decide)⟩

/-- `Remove` on a well-formed heap removes exactly the given key from
the lookup view. -/
theorem Remove_FindExp (h : KeyExpirationMinHeap) (key : ByteStr)
    (hwf : WFHeap h) :
    WFHeap (h.Remove key).2 ∧
    (∀ k, (h.Remove key).2.FindExpiration k =
      if k = key then none else h.FindExpiration k) := by
  cases hlk : mapLookup h.index key with
  | none =>
    refine ⟨?_, ?_⟩
    · rw [Remove_absent h key hlk]
      exact hwf
    · intro k
      rw [Remove_absent h key hlk]
      show h.FindExpiration k = _
      by_cases hkk : k = key
      · subst hkk
        rw [if_pos rfl]
        unfold KeyExpirationMinHeap.FindExpiration
        rw [hlk]
        rfl
      · rw [if_neg hkk]
  | some idx =>
    have hr := Remove_spec h key idx hwf hlk
    exact ⟨hr.2.1, hr.2.2.2⟩

/-- C10: for every nonempty separator-free key `k` (over a state whose
heap is well-formed), `DEL k` replies `OK` whether or not `k` is
present in either store; afterwards `k` is absent from both the
keyspace and the expiration index; and `DEL` is idempotent: a second
`DEL k` also replies `OK` and leaves the state unchanged. -/
theorem C10_del_semantics (st : ServerState) (k : ByteStr)
    (hwf : WFHeap st.keyExpirations) (hk : k ≠ [])
    (hsep : ∀ b ∈ k, isSpaceTab b = false) :
    (DEL st k).2 = .ok (strBytes "OK") ∧
    replyLine (DEL st k).2 = strBytes "OK" ∧
    (DEL st k).1.keyDataSpace.Get k = none ∧
    (DEL st k).1.keyExpirations.FindExpiration k = none ∧
    (DEL (DEL st k).1 k).1 = (DEL st k).1 ∧
    (DEL (DEL st k).1 k).2 = .ok (strBytes "OK") := by
  have hcut := cutTab_clean k hk hsep
  have hDEL : ∀ st2 : ServerState,
      DEL st2 k = (applyDel st2 k, .ok (strBytes "OK")) := by
    intro st2
    unfold DEL
    rw [hcut]
  have hrem := Remove_FindExp st.keyExpirations k hwf
  refine ⟨?_, ?_, ?_, ?_, ?_, ?_⟩
  · rw [hDEL]
  · rw [hDEL]
    rfl
  · rw [hDEL]
    show (st.keyDataSpace.Remove k).Get k = none
    rw [Get_Remove, if_pos rfl]
  · rw [hDEL]
    show (st.keyExpirations.Remove k).2.FindExpiration k = none
    rw [hrem.2 k, if_pos rfl]
  · rw [hDEL, hDEL]
    show applyDel (applyDel st k) k = applyDel st k
    have h1 : (st.keyDataSpace.Remove k).Remove k = st.keyDataSpace.Remove k
        := by
      show (⟨mapErase (mapErase st.keyDataSpace.data k) k⟩ : KeyDataSpace)
        = ⟨mapErase st.keyDataSpace.data k⟩
      rw [mapErase_absent _ _ (by rw [mapLookup_erase, if_pos rfl])]
    have h2 : ((st.keyExpirations.Remove k).2.Remove k).2
        = (st.keyExpirations.Remove k).2 := by
      have hnone : mapLookup (st.keyExpirations.Remove k).2.index k
          = none := by
        have hfe := hrem.2 k
        rw [if_pos rfl] at hfe
        unfold KeyExpirationMinHeap.FindExpiration at hfe
        exact Option.map_eq_none'.mp hfe
      rw [Remove_absent _ _ hnone]
    show ({ keyDataSpace := (st.keyDataSpace.Remove k).Remove k,
            keyExpirations := ((st.keyExpirations.Remove k).2.Remove k).2 }
          : ServerState)
      = { keyDataSpace := st.keyDataSpace.Remove k,
          keyExpirations := (st.keyExpirations.Remove k).2 }
    rw [h1, h2]
  · rw [hDEL]

theorem C10_del_semantics_witness :
    WFHeap stC1.keyExpirations ∧
    (strBytes "k" ≠ []) ∧
    (∀ b ∈ strBytes "k", isSpaceTab b = false) ∧
    ((DEL stC1 (strBytes "k")).2 = .ok (strBytes "OK") ∧
     replyLine (DEL stC1 (strBytes "k")).2 = strBytes "OK" ∧
     (DEL stC1 (strBytes "k")).1.keyDataSpace.Get (strBytes "k") = none ∧
     (DEL stC1 (strBytes "k")).1.keyExpirations.FindExpiration
       (strBytes "k") = none ∧
     (DEL (DEL stC1 (strBytes "k")).1 (strBytes "k")).1
       = (DEL stC1 (strBytes "k")).1 ∧
     (DEL (DEL stC1 (strBytes "k")).1 (strBytes "k")).2
       = .ok (strBytes "OK")) := by
  have hwf : WFHeap stC1.keyExpirations :=
    (GoodState_applySet emptyServerState (strBytes "k") (strBytes "v") none 0
      GoodState_empty (by decide) (by decide)).1
  exact ⟨hwf, by decide, by decide,
    C10_del_semantics stC1 (strBytes "k") hwf (by decide) (by decide)⟩

end RedisGo
